import Mathlib

/-!
Verification of the InferSim discrete-event simulation core against its
natural-language specification.

The development shallowly embeds the Rust sources (src/types.rs, src/workers.rs,
src/randvars.rs, src/incoming.rs, src/sim.rs, src/sim/msg.rs,
src/sim/schedulers.rs) in Lean.  The Rust newtypes Time and Duration wrap f64
compared with IEEE total order; NaN is rejected at the configuration boundary,
so all values the simulator manipulates are totally ordered and the embedding
uses exact rationals.  This abstracts float rounding (and the -0.0/0.0
distinction of total order), which none of the verified claims depend on.
-/

set_option linter.unusedVariables false

namespace InferSim

/-- Time: a virtual time stamp (src/types.rs, struct Time(f64)). -/
abbrev Time := ℚ

/-- Duration: a span of virtual time (src/types.rs, struct Duration(f64)). -/
abbrev Duration := ℚ

/-- Total-order comparison on the embedded f64 values, as produced by
f64::total_cmp for the non-NaN values the simulator manipulates. -/
def qcmp (a b : ℚ) : Ordering :=
  if a < b then .lt else if b < a then .gt else .eq

/-- TimeInterval: the close-open interval [start, start+size)
(src/types.rs, struct TimeInterval(pub Time, pub Duration)). -/
structure TimeInterval where
  start : Time
  size : Duration
deriving DecidableEq, Repr, Inhabited

namespace TimeInterval

/-- TimeInterval::lb (src/types.rs). -/
def lb (i : TimeInterval) : Time := i.start

/-- TimeInterval::ub (src/types.rs). -/
def ub (i : TimeInterval) : Time := i.start + i.size

/-- TimeInterval::is_empty (src/types.rs): the size compares equal to 0.0. -/
def is_empty (i : TimeInterval) : Bool := i.size == 0

/-- TimeInterval::is_disjoint (src/types.rs). -/
def is_disjoint (a b : TimeInterval) : Bool :=
  a.is_empty || b.is_empty || decide (a.lb ≥ b.ub) || decide (b.lb ≥ a.ub)

/-- TimeInterval::overlap (src/types.rs). -/
def overlap (a b : TimeInterval) : Bool := !(a.is_disjoint b)

/-- The derived Ord instance of TimeInterval: lexicographic on
(start, size) using the wrapped total order. -/
def cmp (a b : TimeInterval) : Ordering :=
  match qcmp a.start b.start with
  | .eq => qcmp a.size b.size
  | o => o

end TimeInterval

/-!
Rust slice::binary_search_by, as used by Timeline (src/workers.rs).  The
comparator reports how a probed element compares to the target.  The result
mirrors Result<usize, usize>: Sum.inl is Ok (an index whose element compared
equal), Sum.inr is Err (the insertion point).
-/

/-- One run of the core loop of Rust slice::binary_search_by over l between
indices left (inclusive) and right (exclusive).  The loop halves the range
each iteration, so a fuel of the slice length is never exhausted; fuel keeps
the recursion structural so that the kernel can evaluate concrete calls. -/
def binarySearchGo [Inhabited α] (l : List α) (f : α → Ordering) :
    ℕ → ℕ → ℕ → ℕ ⊕ ℕ
  | 0, left, _ => Sum.inr left
  | fuel + 1, left, right =>
    if left < right then
      let mid := left + (right - left) / 2
      match f (l.getD mid default) with
      | .lt => binarySearchGo l f fuel (mid + 1) right
      | .gt => binarySearchGo l f fuel left mid
      | .eq => Sum.inl mid
    else
      Sum.inr left

/-- Rust slice::binary_search_by over the whole slice. -/
def binarySearch [Inhabited α] (l : List α) (f : α → Ordering) : ℕ ⊕ ℕ :=
  binarySearchGo l f l.length 0 l.length

/-- Timeline (src/workers.rs): the per-worker list of batch intervals,
kept in ascending order under the assumption that they never overlap. -/
structure Timeline where
  pending : List TimeInterval
deriving Inhabited

namespace Timeline

/-- Timeline::add (src/workers.rs): insert at the binary-search insertion
point (Vec::insert semantics). -/
def add (tl : Timeline) (pair : TimeInterval) : Timeline :=
  let idx :=
    match binarySearch tl.pending (fun other => other.cmp pair) with
    | .inl i => i
    | .inr i => i
  ⟨tl.pending.insertIdx idx pair⟩

/-- Timeline::remove (src/workers.rs): remove the exact match if the
binary search finds one, otherwise do nothing. -/
def remove (tl : Timeline) (pair : TimeInterval) : Timeline :=
  match binarySearch tl.pending (fun other => other.cmp pair) with
  | .inl i => ⟨tl.pending.eraseIdx i⟩
  | .inr _ => tl

/-- Timeline::occupied (src/workers.rs): on an exact binary-search hit return
that stored interval; otherwise probe the insertion point index and its
predecessor (checked_sub yields idx, then idx-1 when it exists) and keep the
candidates overlapping the probe. -/
def occupied (tl : Timeline) (interval : TimeInterval) : List TimeInterval :=
  match binarySearch tl.pending (fun other => other.cmp interval) with
  | .inl idx => [tl.pending.getD idx default]
  | .inr idx =>
    (([0, 1].filterMap fun off => if off ≤ idx then some (idx - off) else none).filterMap
        fun i => tl.pending.get? i).filter
      fun pair => pair.overlap interval

/-- The exact value of f64::MAX (that is, (2 - 2^-52) * 2^1023, see
FMAX_eq below), used by Timeline::idle as an effectively infinite
duration; spelled as a literal so that concrete probes evaluate. -/
def FMAX : ℚ :=
  179769313486231570814527423731704356798070567525844996598917476803157260780028538760589558632766878171540458953514382464234321326889464182768467546703537516986049910576551282076245490090389328944075868508455133942304583236903222948165808559332123348274797826204144723168738177180919299881250404026184124858368

/-- Timeline::idle (src/workers.rs): no stored interval overlaps the probe
interval [since, since + f64::MAX). -/
def idle (tl : Timeline) (since : Time) : Bool :=
  (tl.occupied ⟨since, FMAX⟩).isEmpty

end Timeline

/-!
Random variables (src/randvars.rs).  The parametric distributions themselves
come from the external statrs crate; the code stores the statrs distribution
object in each variant and forwards min/max/mean/inverse_cdf to it.  The
embedding keeps that structure: a StatrsDist packages the queries the code
forwards to, and WellFormedRV below records the contract statrs provides for
validly constructed distributions (a monotone inverse CDF hitting min at 0 and
max at 1).  Distributions with infinite support endpoints are not representable
with rational min/max; none of the theorems below instantiate them.
-/

/-- The queries src/randvars.rs forwards to a stored statrs distribution
object. -/
structure StatrsDist where
  inverse_cdf : ℚ → ℚ
  min : ℚ
  max : ℚ
  mean : ℚ

/-- Transformation (src/randvars.rs): the affine transform applied after
sampling and after the inverse CDF. -/
structure Transformation where
  offset : ℚ
  factor : ℚ
deriving DecidableEq, Repr

/-- Transformation::apply (src/randvars.rs): point * factor + offset. -/
def Transformation.apply (t : Transformation) (point : ℚ) : ℚ :=
  point * t.factor + t.offset

/-- RandomVariableInner (src/randvars.rs), with the parameters and the stored
statrs distribution object of each variant; the Exp variant caches
raw_quantile99 at construction. -/
inductive RandomVariableInner where
  | Constant (c : ℚ)
  | Uniform (dist : StatrsDist) (low high : ℚ) (trans : Transformation)
  | Normal (dist : StatrsDist) (mean std_dev : ℚ) (trans : Transformation)
  | LogNormal (dist : StatrsDist) (location scale : ℚ) (trans : Transformation)
  | Exp (dist : StatrsDist) (raw_quantile99 lambda : ℚ) (trans : Transformation)
  | Empirical (dist : StatrsDist) (samples : List ℚ) (trans : Transformation)

/-- RandomVariable (src/randvars.rs): the public wrapper. -/
structure RandomVariable where
  inner : RandomVariableInner

namespace RandomVariable

/-- RandomVariable::constant (src/randvars.rs). -/
def constant (c : ℚ) : RandomVariable := ⟨.Constant c⟩

/-- RandomVariable::min (src/randvars.rs): forwards to the distribution,
without applying the transformation. -/
def min (rv : RandomVariable) : ℚ :=
  match rv.inner with
  | .Constant c => c
  | .Uniform dist _ _ _ => dist.min
  | .Normal dist _ _ _ => dist.min
  | .LogNormal dist _ _ _ => dist.min
  | .Exp dist _ _ _ => dist.min
  | .Empirical dist _ _ => dist.min

/-- RandomVariable::max (src/randvars.rs): forwards to the distribution,
without applying the transformation. -/
def max (rv : RandomVariable) : ℚ :=
  match rv.inner with
  | .Constant c => c
  | .Uniform dist _ _ _ => dist.max
  | .Normal dist _ _ _ => dist.max
  | .LogNormal dist _ _ _ => dist.max
  | .Exp dist _ _ _ => dist.max
  | .Empirical dist _ _ => dist.max

/-- RandomVariable::mean (src/randvars.rs). -/
def mean (rv : RandomVariable) : ℚ :=
  match rv.inner with
  | .Constant c => c
  | .Uniform dist _ _ _ => dist.mean
  | .Normal dist _ _ _ => dist.mean
  | .LogNormal dist _ _ _ => dist.mean
  | .Exp dist _ _ _ => dist.mean
  | .Empirical dist _ _ => dist.mean

/-- RandomVariable::quantile (src/randvars.rs): the Exp variant answers
0.99 from the cached raw quantile (the ulps_eq comparison is modelled as
exact equality); every other path computes the inverse CDF and then applies
the transformation. -/
def quantile (rv : RandomVariable) (percentage : ℚ) : ℚ :=
  match rv.inner with
  | .Constant c => c
  | .Uniform dist _ _ tr => tr.apply (dist.inverse_cdf percentage)
  | .Normal dist _ _ tr => tr.apply (dist.inverse_cdf percentage)
  | .LogNormal dist _ _ tr => tr.apply (dist.inverse_cdf percentage)
  | .Exp dist raw_quantile99 _ tr =>
    if percentage = 99 / 100 then tr.apply raw_quantile99
    else tr.apply (dist.inverse_cdf percentage)
  | .Empirical dist _ tr => tr.apply (dist.inverse_cdf percentage)

/-- The quantile computation with the Exp cache branch removed: inverse CDF
then transform on every non-constant variant.  Used to compare the cached
path against the uncached one. -/
def quantileUncached (rv : RandomVariable) (percentage : ℚ) : ℚ :=
  match rv.inner with
  | .Constant c => c
  | .Uniform dist _ _ tr => tr.apply (dist.inverse_cdf percentage)
  | .Normal dist _ _ tr => tr.apply (dist.inverse_cdf percentage)
  | .LogNormal dist _ _ tr => tr.apply (dist.inverse_cdf percentage)
  | .Exp dist _ _ tr => tr.apply (dist.inverse_cdf percentage)
  | .Empirical dist _ tr => tr.apply (dist.inverse_cdf percentage)

end RandomVariable

/-- The contract a validly constructed statrs distribution satisfies on its
support: the inverse CDF is monotone on [0,1] and reaches min at 0 and max
at 1 (src/randvars.rs constructs distributions only from validated
parameters). -/
def WellFormedDist (d : StatrsDist) : Prop :=
  (∀ p q, 0 ≤ p → p ≤ q → q ≤ 1 → d.inverse_cdf p ≤ d.inverse_cdf q) ∧
    d.inverse_cdf 0 = d.min ∧ d.inverse_cdf 1 = d.max

/-- A validly constructed RandomVariable: its distribution object satisfies
the statrs contract, and for Exp the cached raw_quantile99 is the value the
deserializer stores (dist.inverse_cdf(0.99), src/randvars.rs helpers::exp). -/
def WellFormedRV (rv : RandomVariable) : Prop :=
  match rv.inner with
  | .Constant _ => True
  | .Uniform dist _ _ _ => WellFormedDist dist
  | .Normal dist _ _ _ => WellFormedDist dist
  | .LogNormal dist _ _ _ => WellFormedDist dist
  | .Exp dist raw_quantile99 _ _ =>
    WellFormedDist dist ∧ raw_quantile99 = dist.inverse_cdf (99 / 100)
  | .Empirical dist _ _ => WellFormedDist dist

/-- A RandomVariable whose transformation is the identity (offset 0,
factor 1), or a Constant (which carries no transformation). -/
def IdentityTrans (rv : RandomVariable) : Prop :=
  match rv.inner with
  | .Constant _ => True
  | .Uniform _ _ _ tr => tr = ⟨0, 1⟩
  | .Normal _ _ _ tr => tr = ⟨0, 1⟩
  | .LogNormal _ _ _ tr => tr = ⟨0, 1⟩
  | .Exp _ _ _ tr => tr = ⟨0, 1⟩
  | .Empirical _ _ tr => tr = ⟨0, 1⟩

/-- Observation (src/randvars.rs): a sample paired with the distribution it
came from. -/
structure Observation where
  value : ℚ
  dist : RandomVariable

/-- Observation::quantile (src/randvars.rs). -/
def Observation.quantile (o : Observation) (per : ℚ) : ℚ := o.dist.quantile per

/-- IncomingJob (src/types.rs). -/
structure IncomingJob where
  id : ℕ
  length : Observation
  budget : Option Duration

/-- Job (src/types.rs). -/
structure Job where
  id : ℕ
  admitted : Time
  length : Observation
  deadline : Option Time

/-- IncomingJob::into_job (src/types.rs): admission stamps the clock and
turns the relative budget into an absolute deadline. -/
def IncomingJob.into_job (ij : IncomingJob) (admitted : Time) : Job :=
  { id := ij.id
    admitted := admitted
    length := ij.length
    deadline := ij.budget.map fun b => admitted + b }

/-- Job::missed_deadline (src/types.rs): returns deadline >= now (not
now >= deadline), defaulting to false when there is no deadline. -/
def Job.missed_deadline (j : Job) (now : Time) : Bool :=
  (j.deadline.map fun d => decide (d ≥ now)).getD false

/-- Batch (src/types.rs). -/
structure Batch where
  id : ℕ
  interval : TimeInterval
  done : List Job
  past_due : List Job

/-- Batch::latency (src/types.rs). -/
def Batch.latency (b : Batch) : Duration := b.interval.size

/-- Batch::started (src/types.rs). -/
def Batch.started (b : Batch) : Time := b.interval.start

/-- Modelled from the spec: Batch::to_interval is called by
Worker::batch_start and Worker::batch_done (src/workers.rs) but its
definition is not under src.  The spec fixes a batch's occupancy to the
interval [start, start + duration), which is exactly the interval the Batch
stores, so the accessor returns the stored interval. -/
def Batch.to_interval (b : Batch) : TimeInterval := b.interval

/-- msg::BatchStart (src/sim/msg.rs). -/
structure BatchStart where
  which : ℕ
  when : Time
  jobs : List Job

/-- msg::BatchDone (src/sim/msg.rs). -/
structure BatchDone where
  batch : Batch

/-- The From(msg::BatchStart) conversion for Batch (src/sim.rs): the latency
is the running maximum of the jobs' sampled lengths (Iterator::reduce over
the if a < b then b else a fold), the conversion panics on an empty batch
(modelled as none), and the jobs are partitioned by
missed_deadline(when + latency): satisfying jobs land in past_due, the rest
in done. -/
def batchFromBatchStart (bs : BatchStart) : Option Batch :=
  match bs.jobs.map fun j => j.length.value with
  | [] => none
  | v :: vs =>
    let latency := vs.foldl (fun a b => if a < b then b else a) v
    let finished := bs.when + latency
    let parts := bs.jobs.partition fun job => job.missed_deadline finished
    some
      { id := bs.which
        interval := ⟨bs.when, latency⟩
        done := parts.2
        past_due := parts.1 }

/-- Worker (src/workers.rs). -/
structure Worker where
  id : ℕ
  batch_size : ℕ
  timeline : Timeline

/-- Worker::batch_start (src/workers.rs): the two assertions (matching ids,
no overlap with the stored intervals reported by occupied) are modelled as
none on failure; on success the batch's interval is added to the
timeline. -/
def Worker.batch_start (w : Worker) (batch : Batch) : Option Worker :=
  if w.id = batch.id then
    let interval := batch.to_interval
    let occ := w.timeline.occupied interval
    if occ.isEmpty then some { w with timeline := w.timeline.add interval }
    else none
  else none

/-- Worker::batch_done (src/workers.rs): the id assertion is modelled as
none on failure; otherwise remove the batch's exact interval. -/
def Worker.batch_done (w : Worker) (batch : Batch) : Option Worker :=
  if w.id = batch.id then
    some { w with timeline := w.timeline.remove batch.to_interval }
  else none

end InferSim

namespace InferSim

/-! Basic facts about the comparison functions and the binary search. -/

theorem qcmp_eq_iff {a b : ℚ} : qcmp a b = .eq ↔ a = b := by
  unfold qcmp
  split_ifs with h1 h2
  · simp only [reduceCtorEq, false_iff]
    exact fun he => absurd he (ne_of_lt h1)
  · simp only [reduceCtorEq, false_iff]
    exact fun he => absurd he.symm (ne_of_lt h2)
  · simp only [true_iff]
    exact le_antisymm (not_lt.mp h2) (not_lt.mp h1)

theorem TimeInterval.cmp_eq_iff {a b : TimeInterval} : a.cmp b = .eq ↔ a = b := by
  unfold TimeInterval.cmp
  rcases a with ⟨s1, d1⟩
  rcases b with ⟨s2, d2⟩
  simp only [TimeInterval.mk.injEq]
  rcases h : qcmp s1 s2 with _ | _ | _
  · simp only [reduceCtorEq, false_iff, not_and]
    intro hs
    rw [qcmp_eq_iff.mpr hs] at h
    exact absurd h (by simp)
  · simp only [qcmp_eq_iff] at h ⊢
    simp [h, qcmp_eq_iff]
  · simp only [reduceCtorEq, false_iff, not_and]
    intro hs
    rw [qcmp_eq_iff.mpr hs] at h
    exact absurd h (by simp)

/-- An Ok result of the binary search points inside the searched range at an
element the comparator declared equal. -/
theorem binarySearchGo_inl {α : Type} [Inhabited α] (l : List α) (f : α → Ordering) :
    ∀ fuel left right i, binarySearchGo l f fuel left right = Sum.inl i →
      left ≤ i ∧ i < right ∧ f (l.getD i default) = .eq := by
  intro fuel
  induction fuel with
  | zero =>
    intro left right i hbs
    exact absurd hbs (by simp [binarySearchGo])
  | succ n ih =>
    intro left right i hbs
    rw [binarySearchGo] at hbs
    by_cases h : left < right
    · rw [if_pos h] at hbs
      simp only at hbs
      rcases hf : f (l.getD (left + (right - left) / 2) default) with _ | _ | _ <;>
        rw [hf] at hbs
      · have := ih (left + (right - left) / 2 + 1) right i hbs
        exact ⟨by omega, this.2.1, this.2.2⟩
      · have heq : i = left + (right - left) / 2 := by
          simpa [Eq.comm] using hbs
        subst heq
        exact ⟨by omega, by omega, hf⟩
      · have := ih left (left + (right - left) / 2) i hbs
        exact ⟨this.1, by omega, this.2.2⟩
    · rw [if_neg h] at hbs
      exact absurd hbs (by simp)

/-- Specialised to the full-slice search. -/
theorem binarySearch_inl {α : Type} [Inhabited α] (l : List α) (f : α → Ordering)
    (i : ℕ) (h : binarySearch l f = Sum.inl i) :
    i < l.length ∧ f (l.getD i default) = .eq := by
  have := binarySearchGo_inl l f l.length 0 l.length i h
  exact ⟨this.2.1, this.2.2⟩

end InferSim

namespace InferSim

/-! Concrete values used by several scenarios. -/

/-- An observation of a Constant(v) random variable, as sampling
Constant produces (src/randvars.rs sample_iter). -/
def obsConst (v : ℚ) : Observation := ⟨v, RandomVariable.constant v⟩

/-- A job of sampled length 10 admitted at time 0 with absolute deadline 5
(budget 5), as produced by admission of OneBatch jobs in the spec's
deadline-miss scenario. -/
def jobLen10Dl5 : Job :=
  { id := 0, admitted := 0, length := obsConst 10, deadline := some 5 }

/-- C1: the claim states Job::missed_deadline(now) is true iff now >= d.
The code tests d >= now instead, so the equivalence fails in both
directions: at now = 3 (before the deadline 5) the code already reports the
job past-due although now >= d is false, and at now = 7 (after the deadline)
the code reports it not past-due although now >= d holds.  (The spec itself
flags the source predicate as stale; the claim describes the intended
convention, so the code is in the wrong.) -/
theorem missed_deadline_reversed_eval :
    (jobLen10Dl5.missed_deadline 3 = true ∧ ¬ ((3 : ℚ) ≥ 5)) ∧
      (jobLen10Dl5.missed_deadline 7 = false ∧ ((7 : ℚ) ≥ 5)) := by
  refine ⟨⟨by decide, by norm_num⟩, ⟨by decide, by norm_num⟩⟩

/-- The BatchStart of the spec's deadline-miss scenario: one job of length
10 with deadline 5, started at time 0. -/
def bsDeadlineMiss : BatchStart := ⟨0, 0, [jobLen10Dl5]⟩

/-- C2: the claim states a job with deadline d lands in past_due iff
d < interval.end and in done iff interval.end <= d.  The conversion puts the
partition by the reversed predicate d >= finished into past_due, so the job
with deadline 5 of a batch over [0, 10) — which the claim places in past_due
because 5 < 10 — lands in done, and past_due stays empty. -/
theorem batch_partition_reversed_eval :
    ((batchFromBatchStart bsDeadlineMiss).map fun b =>
        (b.done.map Job.id, b.past_due.map Job.id, b.interval)) =
      some ([0], [], ⟨0, 10⟩) ∧ (5 : ℚ) < 0 + 10 := by
  constructor
  · norm_num [batchFromBatchStart, bsDeadlineMiss, jobLen10Dl5, obsConst,
      Job.missed_deadline, List.partition_eq_filter_filter]
  · norm_num

/-- C10: Timeline::remove of an interval with no exact stored match leaves
the timeline unchanged and signals nothing, and Worker::batch_done for a
batch whose exact interval is absent is consequently a silent no-op (its id
assertion still passing). -/
theorem timeline_remove_absent_noop :
    (∀ (tl : Timeline) (iv : TimeInterval), iv ∉ tl.pending → tl.remove iv = tl) ∧
      ∀ (w : Worker) (b : Batch), w.id = b.id →
        b.to_interval ∉ w.timeline.pending → w.batch_done b = some w := by
  have hrem : ∀ (tl : Timeline) (iv : TimeInterval), iv ∉ tl.pending → tl.remove iv = tl := by
    intro tl iv h
    unfold Timeline.remove
    rcases hbs : binarySearch tl.pending (fun other => other.cmp iv) with i | i
    · exfalso
      have ⟨hlt, heq⟩ := binarySearch_inl _ _ _ hbs
      have hmem : tl.pending.getD i default ∈ tl.pending := by
        rw [List.getD_eq_getElem _ _ hlt]
        exact List.getElem_mem hlt
      rw [TimeInterval.cmp_eq_iff.mp heq] at hmem
      exact h hmem
    · rfl
  refine ⟨hrem, fun w b hid habs => ?_⟩
  unfold Worker.batch_done
  rw [if_pos hid, hrem _ _ habs]

/-- Witness for C10 at a concrete input: the stored interval [1, 2) does not
match the probe [5, 6), so removal and batch_done leave the worker as it
was. -/
theorem timeline_remove_absent_noop_witness :
    Timeline.remove ⟨[⟨1, 1⟩]⟩ ⟨5, 1⟩ = ⟨[⟨1, 1⟩]⟩ ∧
      Worker.batch_done ⟨0, 2, ⟨[⟨1, 1⟩]⟩⟩ ⟨0, ⟨5, 1⟩, [], []⟩ =
        some ⟨0, 2, ⟨[⟨1, 1⟩]⟩⟩ :=
  ⟨timeline_remove_absent_noop.1 ⟨[⟨1, 1⟩]⟩ ⟨5, 1⟩ (by decide),
    timeline_remove_absent_noop.2 ⟨0, 2, ⟨[⟨1, 1⟩]⟩⟩ ⟨0, ⟨5, 1⟩, [], []⟩ rfl
      (by decide)⟩

end InferSim

namespace InferSim

/-! Claim C8: random-variable quantile endpoints and monotonicity. -/

/-- A validly constructed Uniform(0,1) with the affine transformation
offset 5, factor 1; its statrs distribution object has the identity inverse
CDF and support endpoints 0 and 1. -/
def rvUniformShifted : RandomVariable :=
  ⟨.Uniform ⟨fun p => p, 0, 1, 1 / 2⟩ 0 1 ⟨5, 1⟩⟩

/-- C8 counterexample: quantile applies the affine transformation after the
inverse CDF but min() forwards to the untransformed distribution, so for the
validly constructed shifted Uniform the claim's quantile(0) = min() fails
(quantile(0) = 5, min() = 0). -/
theorem quantile_zero_ne_min_transformed :
    WellFormedRV rvUniformShifted ∧
      rvUniformShifted.quantile 0 ≠ rvUniformShifted.min := by
  refine ⟨⟨fun p q h1 h2 h3 => h2, rfl, rfl⟩, ?_⟩
  norm_num [RandomVariable.quantile, RandomVariable.min, rvUniformShifted,
    Transformation.apply]

/-- C8 amended: for every validly constructed RandomVariable whose affine
transformation is the identity (offset 0, factor 1), quantile(0) = min(),
quantile(1) = max(), and quantile is monotone non-decreasing on [0,1]; and
for every validly constructed variable the cached Exp quantile(0.99) path
agrees with the uncached inverse-CDF-then-transform computation. -/
theorem quantile_endpoints_monotone_amended :
    ∀ rv : RandomVariable, WellFormedRV rv →
      (IdentityTrans rv →
          rv.quantile 0 = rv.min ∧ rv.quantile 1 = rv.max ∧
            ∀ p q, 0 ≤ p → p ≤ q → q ≤ 1 → rv.quantile p ≤ rv.quantile q) ∧
        rv.quantile (99 / 100) = rv.quantileUncached (99 / 100) := by
  intro rv hwf
  rcases rv with ⟨inner⟩
  rcases inner with c | ⟨dist, low, high, tr⟩ | ⟨dist, mean, sd, tr⟩ |
    ⟨dist, location, scale, tr⟩ | ⟨dist, raw99, lambda, tr⟩ | ⟨dist, samples, tr⟩
  · exact ⟨fun _ => ⟨rfl, rfl, fun p q _ _ _ => le_refl _⟩, rfl⟩
  · obtain ⟨hmono, h0, h1⟩ := hwf
    refine ⟨fun hid => ?_, rfl⟩
    cases (show tr = ⟨0, 1⟩ from hid)
    refine ⟨?_, ?_, fun p q hp hpq hq => ?_⟩
    · simp [RandomVariable.quantile, RandomVariable.min, Transformation.apply, h0]
    · simp [RandomVariable.quantile, RandomVariable.max, Transformation.apply, h1]
    · simp only [RandomVariable.quantile, Transformation.apply, mul_one, add_zero]
      exact hmono p q hp hpq hq
  · obtain ⟨hmono, h0, h1⟩ := hwf
    refine ⟨fun hid => ?_, rfl⟩
    cases (show tr = ⟨0, 1⟩ from hid)
    refine ⟨?_, ?_, fun p q hp hpq hq => ?_⟩
    · simp [RandomVariable.quantile, RandomVariable.min, Transformation.apply, h0]
    · simp [RandomVariable.quantile, RandomVariable.max, Transformation.apply, h1]
    · simp only [RandomVariable.quantile, Transformation.apply, mul_one, add_zero]
      exact hmono p q hp hpq hq
  · obtain ⟨hmono, h0, h1⟩ := hwf
    refine ⟨fun hid => ?_, rfl⟩
    cases (show tr = ⟨0, 1⟩ from hid)
    refine ⟨?_, ?_, fun p q hp hpq hq => ?_⟩
    · simp [RandomVariable.quantile, RandomVariable.min, Transformation.apply, h0]
    · simp [RandomVariable.quantile, RandomVariable.max, Transformation.apply, h1]
    · simp only [RandomVariable.quantile, Transformation.apply, mul_one, add_zero]
      exact hmono p q hp hpq hq
  · obtain ⟨⟨hmono, h0, h1⟩, hcache⟩ := hwf
    constructor
    · intro hid
      cases (show tr = ⟨0, 1⟩ from hid)
      refine ⟨?_, ?_, fun p q hp hpq hq => ?_⟩
      · simp only [RandomVariable.quantile, RandomVariable.min]
        rw [if_neg (by norm_num)]
        simp [Transformation.apply, h0]
      · simp only [RandomVariable.quantile, RandomVariable.max]
        rw [if_neg (by norm_num)]
        simp [Transformation.apply, h1]
      · simp only [RandomVariable.quantile, Transformation.apply, mul_one, add_zero,
          hcache]
        by_cases hp99 : p = 99 / 100 <;> by_cases hq99 : q = 99 / 100 <;>
          simp only [hp99, hq99, if_pos, if_neg, ite_true, ite_false] <;>
          first
          | exact le_refl _
          | simpa [hp99, hq99] using hmono p q hp hpq hq
    · simp [RandomVariable.quantile, RandomVariable.quantileUncached, hcache]
  · obtain ⟨hmono, h0, h1⟩ := hwf
    refine ⟨fun hid => ?_, rfl⟩
    cases (show tr = ⟨0, 1⟩ from hid)
    refine ⟨?_, ?_, fun p q hp hpq hq => ?_⟩
    · simp [RandomVariable.quantile, RandomVariable.min, Transformation.apply, h0]
    · simp [RandomVariable.quantile, RandomVariable.max, Transformation.apply, h1]
    · simp only [RandomVariable.quantile, Transformation.apply, mul_one, add_zero]
      exact hmono p q hp hpq hq

/-- The untransformed counterpart of the shifted Uniform above, used as the
concrete witness input for the amended claim. -/
def rvUniformPlain : RandomVariable :=
  ⟨.Uniform ⟨fun p => p, 0, 1, 1 / 2⟩ 0 1 ⟨0, 1⟩⟩

/-- Witness for the amended C8 at the untransformed Uniform(0,1). -/
theorem quantile_endpoints_monotone_amended_witness :
    rvUniformPlain.quantile 0 = rvUniformPlain.min ∧
      rvUniformPlain.quantile 1 = rvUniformPlain.max ∧
        rvUniformPlain.quantile (1 / 3) ≤ rvUniformPlain.quantile (1 / 2) ∧
          rvUniformPlain.quantile (99 / 100) =
            rvUniformPlain.quantileUncached (99 / 100) := by
  have hwf : WellFormedRV rvUniformPlain := ⟨fun p q h1 h2 h3 => h2, rfl, rfl⟩
  have h := quantile_endpoints_monotone_amended rvUniformPlain hwf
  have hid : IdentityTrans rvUniformPlain := rfl
  exact ⟨(h.1 hid).1, (h.1 hid).2.1,
    (h.1 hid).2.2 (1 / 3) (1 / 2) (by norm_num) (by norm_num) (by norm_num), h.2⟩

end InferSim

namespace InferSim

theorem FMAX_eq : Timeline.FMAX = 2 ^ 1024 - 2 ^ 971 := by
  unfold Timeline.FMAX
  norm_num
end InferSim

namespace InferSim

/-! Claim C6: Timeline::occupied and Timeline::idle.  The supporting facts
characterise the derived lexicographic order, the binary search on a sorted
slice, and half-open interval overlap. -/

/-- The strict lexicographic order underlying the derived Ord of
TimeInterval. -/
def ltLex (a b : TimeInterval) : Prop :=
  a.start < b.start ∨ (a.start = b.start ∧ a.size < b.size)

instance (a b : TimeInterval) : Decidable (ltLex a b) := by
  unfold ltLex
  exact inferInstance

theorem cmp_eq_lt_iff {a b : TimeInterval} : a.cmp b = .lt ↔ ltLex a b := by
  unfold TimeInterval.cmp qcmp ltLex
  by_cases h1 : a.start < b.start
  · simp [h1]
  · by_cases h2 : b.start < a.start
    · have hne : ¬a.start = b.start := fun he => absurd he.symm (ne_of_lt h2)
      simp [h1, h2, hne]
    · have he : a.start = b.start := le_antisymm (not_lt.mp h2) (not_lt.mp h1)
      by_cases h3 : a.size < b.size
      · simp [h1, h2, h3, he]
      · simp [h1, h2, h3, he]

theorem cmp_eq_gt_iff {a b : TimeInterval} : a.cmp b = .gt ↔ ltLex b a := by
  unfold TimeInterval.cmp qcmp ltLex
  by_cases h1 : a.start < b.start
  · have hne : ¬b.start = a.start := fun he => absurd he.symm (ne_of_lt h1)
    simp [h1, asymm h1, hne]
  · by_cases h2 : b.start < a.start
    · simp [h1, h2]
    · have he : a.start = b.start := le_antisymm (not_lt.mp h2) (not_lt.mp h1)
      by_cases h3 : a.size < b.size
      · have h4 : ¬b.size < a.size := asymm h3
        simp [h1, h2, h3, h4, he.symm]
      · by_cases h4 : b.size < a.size
        · simp [h1, h2, h3, h4, he.symm]
        · simp [h1, h2, h3, h4, he.symm]

theorem ltLex_trans {a b c : TimeInterval} (h1 : ltLex a b) (h2 : ltLex b c) :
    ltLex a c := by
  rcases h1 with h1 | ⟨he1, hs1⟩ <;> rcases h2 with h2 | ⟨he2, hs2⟩
  · exact Or.inl (lt_trans h1 h2)
  · exact Or.inl (he2 ▸ h1)
  · exact Or.inl (he1 ▸ h2)
  · exact Or.inr ⟨he1.trans he2, lt_trans hs1 hs2⟩

/-- An Err result of the binary search on a slice whose comparator is
downward-closed for lt and upward-closed for gt splits the slice at the
insertion point: everything before compares lt, everything from the point on
compares gt. -/
theorem binarySearchGo_inr {α : Type} [Inhabited α] (l : List α) (f : α → Ordering)
    (hcl : ∀ i j : ℕ, i ≤ j → j < l.length →
      f (l.getD j default) = .lt → f (l.getD i default) = .lt)
    (hcg : ∀ i j : ℕ, i ≤ j → j < l.length →
      f (l.getD i default) = .gt → f (l.getD j default) = .gt) :
    ∀ fuel left right i, right - left ≤ fuel → left ≤ right → right ≤ l.length →
      (∀ j, j < left → f (l.getD j default) = .lt) →
      (∀ j, right ≤ j → j < l.length → f (l.getD j default) = .gt) →
      binarySearchGo l f fuel left right = Sum.inr i →
      i ≤ l.length ∧ (∀ j, j < i → f (l.getD j default) = .lt) ∧
        ∀ j, i ≤ j → j < l.length → f (l.getD j default) = .gt := by
  intro fuel
  induction fuel with
  | zero =>
    intro left right i hfu hlr hrl hL hR hbs
    have hi : left = i := by simpa [binarySearchGo] using hbs
    subst hi
    have hlr' : left = right := by omega
    exact ⟨by omega, hL, fun j hj1 hj2 => hR j (by omega) hj2⟩
  | succ n ih =>
    intro left right i hfu hlr hrl hL hR hbs
    rw [binarySearchGo] at hbs
    by_cases h : left < right
    · rw [if_pos h] at hbs
      simp only at hbs
      rcases hf : f (l.getD (left + (right - left) / 2) default) with _ | _ | _ <;>
        rw [hf] at hbs
      · refine ih (left + (right - left) / 2 + 1) right i (by omega) (by omega) hrl
          (fun j hj => ?_) hR hbs
        by_cases hjl : j < left
        · exact hL j hjl
        · exact hcl j (left + (right - left) / 2) (by omega) (by omega) hf
      · exact absurd hbs (by simp)
      · refine ih left (left + (right - left) / 2) i (by omega) (by omega) (by omega)
          hL (fun j hj1 hj2 => ?_) hbs
        exact hcg (left + (right - left) / 2) j hj1 (by omega) hf
    · rw [if_neg h] at hbs
      have hi : left = i := by simpa using hbs
      subst hi
      have hlr' : left = right := by omega
      exact ⟨by omega, hL, fun j hj1 hj2 => hR j (by omega) hj2⟩

/-- The boolean overlap test in terms of the order on the endpoints. -/
theorem overlap_eq_true_iff {a b : TimeInterval} :
    a.overlap b = true ↔ a.size ≠ 0 ∧ b.size ≠ 0 ∧ a.lb < b.ub ∧ b.lb < a.ub := by
  unfold TimeInterval.overlap TimeInterval.is_disjoint TimeInterval.is_empty
  simp only [Bool.not_eq_true', Bool.or_eq_false_iff, decide_eq_false_iff_not, not_le,
    beq_eq_false_iff_ne, ne_eq]
  tauto

theorem overlap_eq_false_iff {a b : TimeInterval} :
    a.overlap b = false ↔ a.size = 0 ∨ b.size = 0 ∨ b.ub ≤ a.lb ∨ a.ub ≤ b.lb := by
  unfold TimeInterval.overlap TimeInterval.is_disjoint TimeInterval.is_empty
  simp only [Bool.not_eq_false', Bool.or_eq_true_iff, decide_eq_true_eq, beq_iff_eq,
    ge_iff_le]
  tauto

end InferSim

namespace InferSim

theorem ltLex_start_le {a b : TimeInterval} (h : ltLex a b) : a.start ≤ b.start :=
  h.elim le_of_lt fun hp => le_of_eq hp.1

/-- In a sorted, pairwise-disjoint list of positively sized intervals, an
earlier interval ends no later than a later one starts. -/
theorem chain_ub_le_lb {l : List TimeInterval}
    (hsort : l.Pairwise ltLex)
    (hdisj : l.Pairwise fun a b => a.overlap b = false)
    (hpos : ∀ iv ∈ l, 0 < iv.size) :
    ∀ i j (hi : i < l.length) (hj : j < l.length), i < j →
      (l[i]).start + (l[i]).size ≤ (l[j]).start := by
  intro i j hi hj hij
  have hlex : ltLex l[i] l[j] := List.pairwise_iff_getElem.mp hsort i j hi hj hij
  have hd : (l[i]).overlap l[j] = false :=
    List.pairwise_iff_getElem.mp hdisj i j hi hj hij
  have hpi : 0 < (l[i]).size := hpos _ (List.getElem_mem hi)
  have hpj : 0 < (l[j]).size := hpos _ (List.getElem_mem hj)
  have hse : (l[i]).start ≤ (l[j]).start := ltLex_start_le hlex
  rcases overlap_eq_false_iff.mp hd with h | h | h | h
  · exact absurd h (ne_of_gt hpi)
  · exact absurd h (ne_of_gt hpj)
  · exfalso
    simp only [TimeInterval.ub, TimeInterval.lb] at h
    linarith
  · simpa only [TimeInterval.ub, TimeInterval.lb] using h

/-- C6 amended: for a timeline of positively sized, pairwise non-overlapping,
sorted intervals, occupied(iv) returns only stored intervals overlapping the
probe and is empty exactly when no stored interval overlaps the probe (it can
omit overlapping intervals beyond the two candidates, see the counterexample);
idle(t) is true iff no stored interval overlaps [t, t + f64::MAX). -/
theorem occupied_empty_iff_amended :
    ∀ tl : Timeline,
      tl.pending.Pairwise ltLex →
      tl.pending.Pairwise (fun a b => a.overlap b = false) →
      (∀ iv ∈ tl.pending, 0 < iv.size) →
      (∀ probe : TimeInterval,
          (∀ x ∈ tl.occupied probe, x ∈ tl.pending ∧ x.overlap probe = true) ∧
            (tl.occupied probe = [] ↔ ∀ x ∈ tl.pending, x.overlap probe = false)) ∧
        ∀ t : Time,
          (tl.idle t = true ↔ ∀ x ∈ tl.pending, x.overlap ⟨t, Timeline.FMAX⟩ = false) := by
  intro tl hsort hdisj hpos
  have hchain := chain_ub_le_lb hsort hdisj hpos
  have main : ∀ probe : TimeInterval,
      (∀ x ∈ tl.occupied probe, x ∈ tl.pending ∧ x.overlap probe = true) ∧
        (tl.occupied probe = [] ↔ ∀ x ∈ tl.pending, x.overlap probe = false) := by
    intro probe
    rcases hbs : binarySearch tl.pending (fun other => other.cmp probe) with i | idx
    · -- exact hit: the stored element equals the probe
      obtain ⟨hlen, heq⟩ := binarySearch_inl _ _ _ hbs
      have hx : tl.pending.getD i default = probe := TimeInterval.cmp_eq_iff.mp heq
      have hmem : probe ∈ tl.pending := by
        rw [← hx, List.getD_eq_getElem _ _ hlen]
        exact List.getElem_mem hlen
      have hpos' : 0 < probe.size := hpos _ hmem
      have hself : probe.overlap probe = true := by
        refine overlap_eq_true_iff.mpr ⟨ne_of_gt hpos', ne_of_gt hpos', ?_, ?_⟩ <;>
          · simp only [TimeInterval.lb, TimeInterval.ub]
            linarith
      have hocc : tl.occupied probe = [probe] := by
        unfold Timeline.occupied
        rw [hbs]
        show [tl.pending.getD i default] = [probe]
        rw [hx]
      rw [hocc]
      refine ⟨?_, ?_⟩
      · intro x hxm
        rcases List.mem_singleton.mp hxm with rfl
        exact ⟨hmem, hself⟩
      · constructor
        · intro h
          exact absurd h (by simp)
        · intro hall
          exact absurd hself (by simp [hall probe hmem])
    · -- insertion point: characterise both sides of the split
      have hcl : ∀ i j : ℕ, i ≤ j → j < tl.pending.length →
          ((tl.pending.getD j default).cmp probe = .lt) →
          (tl.pending.getD i default).cmp probe = .lt := by
        intro i j hij hj hcmp
        rcases eq_or_lt_of_le hij with rfl | hlt
        · exact hcmp
        · have hi : i < tl.pending.length := lt_trans hlt hj
          rw [List.getD_eq_getElem _ _ hj, cmp_eq_lt_iff] at hcmp
          rw [List.getD_eq_getElem _ _ hi, cmp_eq_lt_iff]
          exact ltLex_trans (List.pairwise_iff_getElem.mp hsort i j hi hj hlt) hcmp
      have hcg : ∀ i j : ℕ, i ≤ j → j < tl.pending.length →
          ((tl.pending.getD i default).cmp probe = .gt) →
          (tl.pending.getD j default).cmp probe = .gt := by
        intro i j hij hj hcmp
        rcases eq_or_lt_of_le hij with rfl | hlt
        · exact hcmp
        · have hi : i < tl.pending.length := lt_trans hlt hj
          rw [List.getD_eq_getElem _ _ hi, cmp_eq_gt_iff] at hcmp
          rw [List.getD_eq_getElem _ _ hj, cmp_eq_gt_iff]
          exact ltLex_trans hcmp (List.pairwise_iff_getElem.mp hsort i j hi hj hlt)
      obtain ⟨hidxlen, hltr, hgtr⟩ :=
        binarySearchGo_inr tl.pending (fun other => other.cmp probe) hcl hcg
          tl.pending.length 0 tl.pending.length idx (by omega) (by omega) le_rfl
          (by omega) (fun j hj1 hj2 => absurd hj1 (by omega)) hbs
      have hltx : ∀ j (hj : j < idx) (hj2 : j < tl.pending.length),
          ltLex tl.pending[j] probe := by
        intro j hj hj2
        have := hltr j hj
        rwa [List.getD_eq_getElem _ _ hj2, cmp_eq_lt_iff] at this
      have hgtx : ∀ j (hj1 : idx ≤ j) (hj2 : j < tl.pending.length),
          ltLex probe tl.pending[j] := by
        intro j hj1 hj2
        have := hgtr j hj1 hj2
        rwa [List.getD_eq_getElem _ _ hj2, cmp_eq_gt_iff] at this
      have hocc : tl.occupied probe = (((([0, 1].filterMap fun off =>
              if off ≤ idx then some (idx - off) else none).filterMap
            fun i => tl.pending.get? i).filter
          fun pair => pair.overlap probe)) := by
        unfold Timeline.occupied
        rw [hbs]
      rw [hocc]
      -- membership in the result list
      have hmemR : ∀ x, x ∈ (((([0, 1].filterMap fun off =>
              if off ≤ idx then some (idx - off) else none).filterMap
            fun i => tl.pending.get? i).filter
          fun pair => pair.overlap probe)) ↔
          ((∃ c, (c = idx ∨ (1 ≤ idx ∧ c = idx - 1)) ∧ tl.pending.get? c = some x) ∧
            x.overlap probe = true) := by
        intro x
        rw [List.mem_filter, List.mem_filterMap]
        constructor
        · rintro ⟨⟨c, hc, hget⟩, htest⟩
          refine ⟨⟨c, ?_, hget⟩, htest⟩
          simp only [List.filterMap, Option.bind] at hc
          by_cases h1 : 1 ≤ idx <;> simp [h1] at hc <;> omega
        · rintro ⟨⟨c, hc, hget⟩, htest⟩
          refine ⟨⟨c, ?_, hget⟩, htest⟩
          simp only [List.filterMap, Option.bind]
          by_cases h1 : 1 ≤ idx <;> simp [h1] <;> omega
      refine ⟨?_, ?_⟩
      · intro x hxm
        obtain ⟨⟨c, hc, hget⟩, htest⟩ := (hmemR x).mp hxm
        exact ⟨List.get?_mem hget, htest⟩
      · constructor
        · intro hR0 x hxmem
          by_contra hov'
          have hov : x.overlap probe = true := by
            cases h : x.overlap probe
            · exact absurd h hov'
            · rfl
          obtain ⟨k, hk, rfl⟩ := List.mem_iff_getElem.mp hxmem
          have hpk : 0 < (tl.pending[k]).size := hpos _ hxmem
          obtain ⟨hsk, hsp, hlbk, hubk⟩ := overlap_eq_true_iff.mp hov
          simp only [TimeInterval.lb, TimeInterval.ub] at hlbk hubk
          by_cases hk1 : k + 1 < idx
          · -- impossible: the probe would reach back over idx-1
            have hm1 : idx - 1 < tl.pending.length := by omega
            have hch := hchain k (idx - 1) hk hm1 (by omega)
            have hse : (tl.pending[idx - 1]).start ≤ probe.start :=
              ltLex_start_le (hltx (idx - 1) (by omega) hm1)
            linarith
          · by_cases hk2 : k = idx ∨ k + 1 = idx
            · -- the overlapping interval is one of the two candidates
              have hcand : (k = idx ∨ (1 ≤ idx ∧ k = idx - 1)) := by omega
              have : tl.pending[k] ∈ (((([0, 1].filterMap fun off =>
                      if off ≤ idx then some (idx - off) else none).filterMap
                    fun i => tl.pending.get? i).filter
                  fun pair => pair.overlap probe)) :=
                (hmemR _).mpr ⟨⟨k, hcand, by
                  rw [List.get?_eq_getElem?, List.getElem?_eq_getElem hk]⟩, hov⟩
              rw [hR0] at this
              exact absurd this (List.not_mem_nil _)
            · -- k > idx: then the interval at idx itself overlaps the probe
              have hki : idx < k := by omega
              have hidx : idx < tl.pending.length := by omega
              have hpi : 0 < (tl.pending[idx]).size := hpos _ (List.getElem_mem hidx)
              have hch := hchain idx k hidx hk hki
              have hsp' : probe.start ≤ (tl.pending[idx]).start :=
                ltLex_start_le (hgtx idx le_rfl hidx)
              have hovi : (tl.pending[idx]).overlap probe = true := by
                refine overlap_eq_true_iff.mpr ⟨ne_of_gt hpi, hsp, ?_, ?_⟩ <;>
                  simp only [TimeInterval.lb, TimeInterval.ub] <;> linarith
              have : tl.pending[idx] ∈ (((([0, 1].filterMap fun off =>
                      if off ≤ idx then some (idx - off) else none).filterMap
                    fun i => tl.pending.get? i).filter
                  fun pair => pair.overlap probe)) :=
                (hmemR _).mpr ⟨⟨idx, Or.inl rfl, by
                  rw [List.get?_eq_getElem?, List.getElem?_eq_getElem hidx]⟩, hovi⟩
              rw [hR0] at this
              exact absurd this (List.not_mem_nil _)
        · intro hall
          rw [List.filter_eq_nil_iff]
          intro x hxm
          obtain ⟨c, hget⟩ := List.mem_filterMap.mp hxm
          have := hall x (List.get?_mem hget.2)
          simp [this]
  refine ⟨main, fun t => ?_⟩
  unfold Timeline.idle
  rw [List.isEmpty_iff]
  exact (main ⟨t, Timeline.FMAX⟩).2

end InferSim

namespace InferSim

/-- C6 counterexample: on the sorted, pairwise non-overlapping timeline
containing [1, 2) and [3, 4), the probe [0, 10) overlaps both stored
intervals but occupied returns only [1, 2) — the insertion point is 0 and
only indices 0 and -1 are candidates — so occupied does not return every
overlapping stored interval as the claim states. -/
theorem occupied_misses_far_overlap :
    Timeline.occupied ⟨[⟨1, 1⟩, ⟨3, 1⟩]⟩ ⟨0, 10⟩ = [⟨1, 1⟩] ∧
      TimeInterval.overlap ⟨3, 1⟩ ⟨0, 10⟩ = true ∧
      (⟨3, 1⟩ : TimeInterval) ∈ (⟨[⟨1, 1⟩, ⟨3, 1⟩]⟩ : Timeline).pending ∧
      ltLex ⟨1, 1⟩ ⟨3, 1⟩ ∧
      TimeInterval.overlap ⟨1, 1⟩ ⟨3, 1⟩ = false := by
  with_unfolding_all decide

/-- Witness for the amended C6 on the same concrete timeline: the returned
candidates do overlap the probe, and idle agrees with the no-overlap
characterisation at time 4. -/
theorem occupied_empty_iff_amended_witness :
    (∀ x ∈ Timeline.occupied ⟨[⟨1, 1⟩, ⟨3, 1⟩]⟩ ⟨0, 10⟩,
        x ∈ (⟨[⟨1, 1⟩, ⟨3, 1⟩]⟩ : Timeline).pending ∧
          x.overlap ⟨0, 10⟩ = true) ∧
      (Timeline.idle ⟨[⟨1, 1⟩, ⟨3, 1⟩]⟩ 4 = true ↔
        ∀ x ∈ (⟨[⟨1, 1⟩, ⟨3, 1⟩]⟩ : Timeline).pending,
          x.overlap ⟨4, Timeline.FMAX⟩ = false) := by
  have h := occupied_empty_iff_amended ⟨[⟨1, 1⟩, ⟨3, 1⟩]⟩
    (by with_unfolding_all decide) (by with_unfolding_all decide)
    (by with_unfolding_all decide)
  exact ⟨(h.1 ⟨0, 10⟩).1, h.2 4⟩

end InferSim

namespace InferSim

/-!
Events and messages (src/sim.rs, src/sim/msg.rs).  The define_message! macro
derives PartialOrd/Ord for Message with every payload field ignored
(educe(Ord(ignore))), so messages compare by variant index alone, in the
declaration order of define_message!.  Event derives Ord lexicographically on
(time, message).
-/

/-- Message (src/sim.rs define_message!), variants in declaration order. -/
inductive Message where
  | WakeUpSchedulerController
  | WakeUpWorkerController
  | WakeUpIncomingController
  | IncomingJobs (jobs : List IncomingJob)
  | PastDue (jobs : List Job)
  | BatchStart (bs : BatchStart)
  | BatchDone (batch : Batch)

/-- The variant index that the derived Message Ord compares (payloads are
ignored by the educe attributes). -/
def Message.kindIdx : Message → ℕ
  | .WakeUpSchedulerController => 0
  | .WakeUpWorkerController => 1
  | .WakeUpIncomingController => 2
  | .IncomingJobs _ => 3
  | .PastDue _ => 4
  | .BatchStart _ => 5
  | .BatchDone _ => 6

/-- Event (src/sim.rs). -/
structure Event where
  time : Time
  message : Message

/-- The derived Event order: lexicographic on (time, message variant). -/
def Event.keyLe (a b : Event) : Prop :=
  a.time < b.time ∨ (a.time = b.time ∧ a.message.kindIdx ≤ b.message.kindIdx)

instance (a b : Event) : Decidable (a.keyLe b) := by
  unfold Event.keyLe
  exact inferInstance

theorem Event.keyLe_total (a b : Event) : a.keyLe b ∨ b.keyLe a := by
  unfold Event.keyLe
  rcases lt_trichotomy a.time b.time with h | h | h
  · exact Or.inl (Or.inl h)
  · rcases Nat.le_total a.message.kindIdx b.message.kindIdx with h2 | h2
    · exact Or.inl (Or.inr ⟨h, h2⟩)
    · exact Or.inr (Or.inr ⟨h.symm, h2⟩)
  · exact Or.inr (Or.inl h)

theorem Event.keyLe_trans {a b c : Event} (h1 : a.keyLe b) (h2 : b.keyLe c) :
    a.keyLe c := by
  unfold Event.keyLe at h1 h2 ⊢
  rcases h1 with h1 | ⟨he1, hk1⟩ <;> rcases h2 with h2 | ⟨he2, hk2⟩
  · exact Or.inl (lt_trans h1 h2)
  · exact Or.inl (he2 ▸ h1)
  · exact Or.inl (he1 ▸ h2)
  · exact Or.inr ⟨he1.trans he2, le_trans hk1 hk2⟩

/-!
The future-event queue is a Rust std BinaryHeap of Reverse(Event): a
max-heap of reversed events, i.e. a priority queue popping a least event
under the derived (time, variant) order.  The heap's pop order among events
that compare fully equal (same time, same variant) is deterministic but
unspecified; the model below fixes one choice (first minimal in insertion
order) and no theorem depends on which equal element pops first.  Pushing
appends, mirroring insertion order.
-/

/-- Pop a minimal event under the derived order (the first minimal one, in
insertion order); returns the remaining queue alongside. -/
def popMin : List Event → Option (Event × List Event)
  | [] => none
  | e :: rest =>
    match popMin rest with
    | none => some (e, [])
    | some (m, rest') =>
      if decide (e.keyLe m) then some (e, rest) else some (m, e :: rest')

/-- Drain the queue by repeated pops (fuelled by the queue length). -/
def drainGo : ℕ → List Event → List Event
  | 0, _ => []
  | fuel + 1, q =>
    match popMin q with
    | none => []
    | some (m, rest) => m :: drainGo fuel rest

/-- The full pop sequence of a queue. -/
def drainAll (q : List Event) : List Event := drainGo q.length q

theorem popMin_none_iff {q : List Event} : popMin q = none ↔ q = [] := by
  cases q with
  | nil => simp [popMin]
  | cons e rest =>
    simp only [popMin]
    rcases h : popMin rest with _ | ⟨m, rest'⟩
    · simp
    · simp only
      split <;> simp

theorem popMin_perm {q : List Event} {m : Event} {rest : List Event}
    (h : popMin q = some (m, rest)) : q.Perm (m :: rest) := by
  induction q generalizing m rest with
  | nil => exact absurd h (by simp [popMin])
  | cons e tail ih =>
    rw [popMin] at h
    rcases htail : popMin tail with _ | ⟨m', rest'⟩ <;> rw [htail] at h
    · obtain rfl := popMin_none_iff.mp htail
      simp only [Option.some.injEq, Prod.mk.injEq] at h
      obtain ⟨rfl, rfl⟩ := h
      exact List.Perm.refl _
    · simp only at h
      split at h
      · simp only [Option.some.injEq, Prod.mk.injEq] at h
        obtain ⟨rfl, rfl⟩ := h
        exact List.Perm.refl _
      · simp only [Option.some.injEq, Prod.mk.injEq] at h
        obtain ⟨rfl, rfl⟩ := h
        exact ((ih htail).cons e).trans (List.Perm.swap m' e rest')

theorem popMin_min {q : List Event} {m : Event} {rest : List Event}
    (h : popMin q = some (m, rest)) : ∀ x ∈ rest, m.keyLe x := by
  induction q generalizing m rest with
  | nil => exact absurd h (by simp [popMin])
  | cons e tail ih =>
    rw [popMin] at h
    rcases htail : popMin tail with _ | ⟨m', rest'⟩ <;> rw [htail] at h
    · simp only [Option.some.injEq, Prod.mk.injEq] at h
      obtain ⟨rfl, rfl⟩ := h
      intro x hx
      exact absurd hx (List.not_mem_nil x)
    · simp only at h
      split at h
      · next hle =>
        simp only [Option.some.injEq, Prod.mk.injEq] at h
        obtain ⟨rfl, rfl⟩ := h
        intro x hx
        have hperm := popMin_perm htail
        have hx' : x ∈ m' :: rest' := hperm.mem_iff.mp hx
        rcases List.mem_cons.mp hx' with rfl | hx''
        · exact of_decide_eq_true hle
        · exact Event.keyLe_trans (of_decide_eq_true hle) (ih htail x hx'')
      · next hle =>
        simp only [Option.some.injEq, Prod.mk.injEq] at h
        obtain ⟨rfl, rfl⟩ := h
        intro x hx
        rcases List.mem_cons.mp hx with rfl | hx''
        · rcases Event.keyLe_total x m' with h2 | h2
          · exact absurd (decide_eq_true h2) (by simpa using hle)
          · exact h2
        · exact ih htail x hx''

end InferSim

namespace InferSim

theorem drainGo_sorted_perm :
    ∀ fuel q, q.length ≤ fuel →
      (drainGo fuel q).Sorted Event.keyLe ∧ (drainGo fuel q).Perm q := by
  intro fuel
  induction fuel with
  | zero =>
    intro q hq
    have : q = [] := List.length_eq_zero.mp (Nat.le_zero.mp hq)
    subst this
    exact ⟨List.sorted_nil, List.Perm.refl _⟩
  | succ n ih =>
    intro q hq
    rw [drainGo]
    rcases hpm : popMin q with _ | ⟨m, rest⟩
    · obtain rfl := popMin_none_iff.mp hpm
      exact ⟨List.sorted_nil, List.Perm.refl _⟩
    · have hperm := popMin_perm hpm
      have hlen : rest.length ≤ n := by
        have := hperm.length_eq
        simp only [List.length_cons] at this
        omega
      obtain ⟨hsorted, hp⟩ := ih rest hlen
      refine ⟨List.sorted_cons.mpr ⟨fun b hb => ?_, hsorted⟩, ?_⟩
      · exact popMin_min hpm b (hp.mem_iff.mp hb)
      · exact (hp.cons m).trans hperm.symm

/-- C3 amended: the driver pops future events in non-decreasing
(time, message-variant) order — the full pop sequence is a sorted
permutation of the queue contents.  At equal times the variant order
(wake-ups, IncomingJobs, PastDue, BatchStart, BatchDone) decides, not FIFO
insertion order. -/
theorem event_queue_pop_order_amended :
    ∀ q : List Event,
      (drainAll q).Sorted Event.keyLe ∧ (drainAll q).Perm q := fun q =>
  drainGo_sorted_perm q.length q le_rfl

/-- C3 counterexample: a BatchDone and a PastDue event at the same time 1,
inserted in that order, pop in the opposite order because the derived
Message order compares variant indices (PastDue is variant 4, BatchDone
variant 6) and ignores insertion order. -/
theorem event_ties_not_fifo :
    ((drainAll [⟨1, .BatchDone ⟨0, ⟨0, 1⟩, [], []⟩⟩, ⟨1, .PastDue []⟩]).map
          fun e => e.message.kindIdx) = [4, 6] ∧
      (([⟨1, .BatchDone ⟨0, ⟨0, 1⟩, [], []⟩⟩, ⟨1, .PastDue []⟩] :
            List Event).map fun e => e.message.kindIdx) = [6, 4] ∧
      ∀ e ∈ ([⟨1, .BatchDone ⟨0, ⟨0, 1⟩, [], []⟩⟩, ⟨1, .PastDue []⟩] :
          List Event), e.time = 1 := by
  with_unfolding_all decide

end InferSim

namespace InferSim

/-! Worker controller and schedulers (src/sim.rs, src/sim/schedulers.rs,
src/utils/batcher.rs).

A scheduler callback runs inside a nuts message handler that holds the
RefCell borrow of the simulation state, so the nuts runtime queues every
nuts::publish made inside it (immediate delivery would re-borrow the state
and panic); the queued BatchStart messages are delivered to
WorkerController::on_batch_start, in publish order, only after the callback
returns.  The embedding therefore has scheduler callbacks return the list of
published BatchStart messages, applied afterwards by applyBatchStarts. -/

/-- The running maximum fold of Iterator::reduce(if a < b then b else a)
computes a maximum of the visited values. -/
theorem foldl_max_spec (v : ℚ) (vs : List ℚ) :
    vs.foldl (fun a b => if a < b then b else a) v ∈ (v :: vs) ∧
      ∀ x ∈ v :: vs, x ≤ vs.foldl (fun a b => if a < b then b else a) v := by
  induction vs generalizing v with
  | nil => exact ⟨List.mem_singleton.mpr rfl, by simp⟩
  | cons b vs ih =>
    simp only [List.foldl_cons]
    obtain ⟨hmem, hmax⟩ := ih (if v < b then b else v)
    constructor
    · rcases List.mem_cons.mp hmem with he | hm
      · rw [he]
        split <;> simp
      · simp [List.mem_cons, Or.inr (Or.inr hm)]
    · intro x hx
      rcases List.mem_cons.mp hx with rfl | hx2
      · refine le_trans ?_ (hmax _ (List.mem_cons_self _ _))
        split <;> simp_all [le_of_lt]
      · rcases List.mem_cons.mp hx2 with rfl | hx3
        · refine le_trans ?_ (hmax _ (List.mem_cons_self _ _))
          split <;> simp_all [not_lt.mp]
        · exact hmax _ (List.mem_cons_of_mem _ hx3)

/-- Batcher::batch_pop_front for VecDeque (src/utils/batcher.rs): drain the
first min(len, size) elements, returning (drained, remaining). -/
def batchPopFront (l : List Job) (size : ℕ) : List Job × List Job :=
  (l.take (Nat.min l.length size), l.drop (Nat.min l.length size))

/-- drain_available_worker (src/sim/schedulers.rs): walk the workers; on
each whose timeline is idle now, take a batch from the pool; stop at an
empty batch, otherwise publish BatchStart{when := now, which := worker id}.
The timelines are the ones frozen at callback entry (see the module
comment). -/
def drainAvailableWorker (now : Time) :
    List Worker → List Job → List Job × List BatchStart
  | [], pool => (pool, [])
  | w :: ws, pool =>
    if w.timeline.idle now then
      let parts := batchPopFront pool w.batch_size
      if parts.1.isEmpty then (pool, [])
      else
        let r := drainAvailableWorker now ws parts.2
        (r.1, ⟨w.id, now, parts.1⟩ :: r.2)
    else drainAvailableWorker now ws pool

/-- FIFO::next_batch (src/sim/schedulers.rs). -/
def fifoNextBatch (now : Time) (workers : List Worker) (pending : List Job) :
    List Job × List BatchStart :=
  drainAvailableWorker now workers pending

/-- My::next_batch (src/sim/schedulers.rs): split pending jobs by presence
of a deadline, sort the deadline jobs by latest safe start
(deadline - length.quantile(percentile); the unwrap of the deadline is
modelled by getD 0, the partition guarantees it is present; mergeSort is
stable like Rust sort_by_cached_key), drain the deadline jobs, then drain
the best-effort jobs — both drains against the same frozen timelines — and
put the leftovers back, deadline jobs first. -/
def myNextBatch (percentile : ℚ) (now : Time) (workers : List Worker)
    (pending : List Job) : List Job × List BatchStart :=
  let parts := pending.partition fun j => j.deadline.isSome
  let sorted := List.mergeSort parts.1 fun a b =>
    decide (a.deadline.getD 0 - a.length.quantile percentile ≤
      b.deadline.getD 0 - b.length.quantile percentile)
  let d1 := drainAvailableWorker now workers sorted
  let d2 := drainAvailableWorker now workers parts.2
  (d1.1 ++ d2.1, d1.2 ++ d2.2)

/-- WorkerController::on_batch_start (src/sim.rs): convert the BatchStart
into a Batch (panic on empty, modelled none), run Worker::batch_start on
the target worker (panics modelled none, including Rust's out-of-range
indexing), and post BatchDone at the interval's upper bound. -/
def onBatchStartWorker (workers : List Worker) (bs : BatchStart) :
    Option (List Worker × Event) :=
  match batchFromBatchStart bs with
  | none => none
  | some batch =>
    match workers.get? batch.id with
    | none => none
    | some w =>
      match w.batch_start batch with
      | none => none
      | some w' =>
        some (workers.set batch.id w', ⟨batch.interval.ub, .BatchDone batch⟩)

/-- Deliver the queued BatchStart publishes to the worker controller in
publish order, accumulating the posted BatchDone events; none when an
assertion fires. -/
def applyBatchStarts :
    List Worker → List BatchStart → List Event → Option (List Worker × List Event)
  | workers, [], evs => some (workers, evs)
  | workers, bs :: rest, evs =>
    match onBatchStartWorker workers bs with
    | none => none
    | some (workers', ev) => applyBatchStarts workers' rest (evs ++ [ev])

/-- C4: a successful on_batch_start computes the batch duration as the
maximum of the jobs' sampled lengths, records [when, when + duration) on the
target worker's timeline, and posts BatchDone at exactly when + duration; a
single-job batch has duration equal to that job's sampled length. -/
theorem on_batch_start_spec :
    ∀ (workers workers' : List Worker) (bs : BatchStart) (ev : Event),
      onBatchStartWorker workers bs = some (workers', ev) →
      ∃ (d : ℚ) (batch : Batch),
        (d ∈ bs.jobs.map (fun j => j.length.value) ∧
            ∀ x ∈ bs.jobs.map (fun j => j.length.value), x ≤ d) ∧
          ev = ⟨bs.when + d, .BatchDone batch⟩ ∧
          batch.interval = ⟨bs.when, d⟩ ∧ batch.id = bs.which ∧
          (∃ w, workers.get? bs.which = some w ∧
            workers' =
              workers.set bs.which
                { w with timeline := w.timeline.add ⟨bs.when, d⟩ }) ∧
          ∀ j, bs.jobs = [j] → d = j.length.value := by
  intro workers workers' bs ev h
  unfold onBatchStartWorker at h
  rcases hb : batchFromBatchStart bs with _ | batch <;> simp only [hb] at h
  · exact absurd h (by simp)
  · unfold batchFromBatchStart at hb
    rcases hm : bs.jobs.map (fun j => j.length.value) with _ | ⟨v, vs⟩ <;>
      simp only [hm] at hb
    · exact absurd hb (by simp)
    · simp only [Option.some.injEq] at hb
      obtain ⟨hmem, hmax⟩ := foldl_max_spec v vs
      refine ⟨vs.foldl (fun a b => if a < b then b else a) v, batch,
        ⟨by rw [hm]; exact hmem, by rw [hm]; exact hmax⟩, ?_⟩
      have hid : batch.id = bs.which := by rw [← hb]
      have hint : batch.interval = ⟨bs.when, vs.foldl (fun a b => if a < b then b else a) v⟩ := by
        rw [← hb]
      rcases hw : workers.get? batch.id with _ | w <;> simp only [hw] at h
      · exact absurd h (by simp)
      · rcases hws : w.batch_start batch with _ | w' <;> simp only [hws] at h
        · exact absurd h (by simp)
        · simp only [Option.some.injEq, Prod.mk.injEq] at h
          unfold Worker.batch_start at hws
          by_cases hidw : w.id = batch.id
          · rw [if_pos hidw] at hws
            by_cases hocc : (w.timeline.occupied batch.to_interval).isEmpty = true
            · rw [if_pos hocc] at hws
              simp only [Option.some.injEq] at hws
              refine ⟨?_, hint, hid, ⟨w, by rw [← hid]; exact hw, ?_⟩, ?_⟩
              · rw [← h.2, TimeInterval.ub, hint]
              · rw [← h.1, ← hws, hid, Batch.to_interval, hint]
              · intro j hj
                rw [hj] at hm
                simp only [List.map_cons, List.map_nil, List.cons.injEq] at hm
                rw [← hm.2, ← hm.1]
                rfl
            · rw [if_neg hocc] at hws
              exact absurd hws (by simp)
          · rw [if_neg hidw] at hws
            exact absurd hws (by simp)

end InferSim

namespace InferSim

/-- A deadline-free job of length 10 admitted at time 5, for the C4
witness. -/
def jobNoDl : Job := ⟨0, 5, obsConst 10, none⟩

/-- The C4 witness BatchStart: worker 0, time 5, one job of length 10. -/
def bsW : BatchStart := ⟨0, 5, [jobNoDl]⟩

/-- Witness for C4 at the concrete single-job batch: the duration is the
job's length 10, the interval [5, 15) lands on worker 0's timeline, and
BatchDone is posted at 15. -/
theorem on_batch_start_spec_witness :
    ∃ (d : ℚ) (batch : Batch),
      (d ∈ bsW.jobs.map (fun j => j.length.value) ∧
          ∀ x ∈ bsW.jobs.map (fun j => j.length.value), x ≤ d) ∧
        (⟨15, .BatchDone ⟨0, ⟨5, 10⟩, [jobNoDl], []⟩⟩ : Event) =
            ⟨bsW.when + d, .BatchDone batch⟩ ∧
        batch.interval = ⟨bsW.when, d⟩ ∧ batch.id = bsW.which ∧
        (∃ w, [(⟨0, 2, ⟨[]⟩⟩ : Worker)].get? bsW.which = some w ∧
          [(⟨0, 2, ⟨[⟨5, 10⟩]⟩⟩ : Worker)] =
            [(⟨0, 2, ⟨[]⟩⟩ : Worker)].set bsW.which
              { w with timeline := w.timeline.add ⟨bsW.when, d⟩ }) ∧
        ∀ j, bsW.jobs = [j] → d = j.length.value :=
  on_batch_start_spec [⟨0, 2, ⟨[]⟩⟩] [⟨0, 2, ⟨[⟨5, 10⟩]⟩⟩] bsW
    ⟨15, .BatchDone ⟨0, ⟨5, 10⟩, [jobNoDl], []⟩⟩ (by with_unfolding_all rfl)

/-- A job with deadline 12 and length 10, pending at time 0. -/
def jobDl12 : Job := ⟨0, 0, obsConst 10, some 12⟩

/-- A best-effort job (no deadline) of length 10, pending at time 0. -/
def jobBE : Job := ⟨1, 0, obsConst 10, none⟩

/-- C5: with one idle worker of batch size 1 and a pending queue holding one
deadline job and one best-effort job, My::next_batch publishes two
BatchStart messages for the same worker at the same time — the second
drain's idle test reads the frozen timeline because the first BatchStart is
still queued — and delivering them makes the overlap assertion inside
Worker::batch_start fire (modelled none).  The claim's invariant that a
batch starts only on an idle worker, and that the assertion never fires, is
therefore violated by the code. -/
theorem my_scheduler_fires_overlap_assertion :
    ((myNextBatch (1 / 2) 0 [⟨0, 1, ⟨[]⟩⟩] [jobDl12, jobBE]).2.map
          fun b => (b.which, b.when, b.jobs.map Job.id)) =
        [(0, 0, [0]), (0, 0, [1])] ∧
      (applyBatchStarts [⟨0, 1, ⟨[]⟩⟩]
          (myNextBatch (1 / 2) 0 [⟨0, 1, ⟨[]⟩⟩] [jobDl12, jobBE]).2 []).isNone =
        true := by
  with_unfolding_all decide

end InferSim

namespace InferSim

/-!
The simulation driver (src/sim.rs).  Simulation holds the shared state of
SimulationController; the peekable incoming iterator and the scheduler
wake-up bookkeeping live in IncomingController and SchedulerController in
the source and are carried here as extra fields.  One driver step pops the
least future event (SimulationController::step), advances the clock, records
the event, and dispatches it through the nuts runtime: subscribers run in
registration order (IncomingController, WorkerController,
SchedulerController), publishes made inside a handler are queued and
delivered afterwards in FIFO order, and messages without a subscriber
(WakeUpWorkerController, PastDue) are dropped after being recorded.
-/

/-- Simulation (src/sim.rs) together with the controller-local states. -/
structure Simulation where
  time : Time
  future_events : List Event
  processed_events : List Event
  pending_jobs : List Job
  workers : List Worker
  incoming : List (Time × List IncomingJob)
  next_wakeup : Time

/-- The minimum deadline among pending jobs
(SchedulerController::schedule_wake_up, src/sim.rs). -/
def minDeadline (pending : List Job) : Option Time :=
  match pending.filterMap fun j => j.deadline with
  | [] => none
  | d :: ds => some (ds.foldl (fun a b => if b < a then b else a) d)

/-- SchedulerController::schedule_wake_up (src/sim.rs): post a scheduler
wake-up at the earliest pending deadline when it differs from the one
already scheduled. -/
def scheduleWakeUp (pending : List Job) (next_wakeup : Time) :
    List Event × Time :=
  match minDeadline pending with
  | none => ([], next_wakeup)
  | some t =>
    if t ≠ next_wakeup then ([⟨t, .WakeUpSchedulerController⟩], t)
    else ([], next_wakeup)

/-- The two Scheduler trait callbacks (src/sim/schedulers.rs) plus the
wake-up entry.  Modelled from the spec: SchedulerController::on_wake_up
calls self.scheduler.on_wake_up, a method the Scheduler trait in src does
not declare; the spec says every scheduler entry (arrival, completion,
deadline wake-up) may drain pending jobs into batches, so the wake-up entry
is modelled as a callback of the same shape.  Each callback maps the clock,
the frozen workers and the pending queue to the new pending queue and the
published BatchStart messages. -/
structure SchedulerModel where
  on_incoming_jobs : Time → List Worker → List Job → List Job × List BatchStart
  on_batch_done : Time → List Worker → List Job → List Job × List BatchStart
  on_wake_up : Time → List Worker → List Job → List Job × List BatchStart

/-- The FIFO policy: every callback drains the head of the pending queue
onto idle workers (the wake-up callback is the spec-modelled entry). -/
def FIFOSched : SchedulerModel := ⟨fifoNextBatch, fifoNextBatch, fifoNextBatch⟩

/-- The popped event applied to the shared state: clock update and trace
append (SimulationController::step). -/
def popped (st : Simulation) (e : Event) : Simulation :=
  { st with time := e.time, processed_events := st.processed_events ++ [e] }

/-- Dispatch of one recorded event to its subscribers, including the
deferred delivery of the BatchStart messages the scheduler published and of
the BatchDone events the worker controller posts; none models a panic. -/
def dispatch (sched : SchedulerModel) (st : Simulation) (e : Event)
    (rest : List Event) : Option Simulation :=
  match e.message with
  | .WakeUpSchedulerController =>
    let parts := st.pending_jobs.partition fun j => j.missed_deadline e.time
    let evs1 : List Event :=
      if parts.1.isEmpty then [] else [⟨e.time, .PastDue parts.1⟩]
    let r := sched.on_wake_up e.time st.workers parts.2
    let sw := scheduleWakeUp r.1 st.next_wakeup
    match applyBatchStarts st.workers r.2 [] with
    | none => none
    | some (workers', evs2) =>
      some { st with pending_jobs := r.1, workers := workers',
                     future_events := rest ++ evs1 ++ sw.1 ++ evs2,
                     next_wakeup := sw.2 }
  | .WakeUpWorkerController => some { st with future_events := rest }
  | .WakeUpIncomingController =>
    match st.incoming with
    | [] => some { st with future_events := rest }
    | (t, jobs) :: tl =>
      if e.time ≥ t then
        let evs := ⟨t, Message.IncomingJobs jobs⟩ ::
          (match tl with
            | [] => []
            | (t2, _) :: _ => [⟨t2, Message.WakeUpIncomingController⟩])
        some { st with incoming := tl, future_events := rest ++ evs }
      else
        some { st with
          future_events := rest ++ [⟨t, Message.WakeUpIncomingController⟩] }
  | .IncomingJobs jobs =>
    let pending1 := st.pending_jobs ++ jobs.map fun ij => ij.into_job e.time
    let sw := scheduleWakeUp pending1 st.next_wakeup
    let r := sched.on_incoming_jobs e.time st.workers pending1
    match applyBatchStarts st.workers r.2 [] with
    | none => none
    | some (workers', evs2) =>
      some { st with pending_jobs := r.1, workers := workers',
                     future_events := rest ++ sw.1 ++ evs2,
                     next_wakeup := sw.2 }
  | .PastDue _ => some { st with future_events := rest }
  | .BatchStart bs =>
    match onBatchStartWorker st.workers bs with
    | none => none
    | some (workers', ev) =>
      some { st with workers := workers', future_events := rest ++ [ev] }
  | .BatchDone batch =>
    match st.workers.get? batch.id with
    | none => none
    | some w =>
      match w.batch_done batch with
      | none => none
      | some w' =>
        let workers1 := st.workers.set batch.id w'
        let r := sched.on_batch_done e.time workers1 st.pending_jobs
        match applyBatchStarts workers1 r.2 [] with
        | none => none
        | some (workers2, evs2) =>
          some { st with pending_jobs := r.1, workers := workers2,
                         future_events := rest ++ evs2 }

/-- One driver iteration, one constructor per message kind as routed by
SimulationController::step. -/
inductive Step (sched : SchedulerModel) : Simulation → Simulation → Prop where
  | wakeupScheduler {st e rest st'} :
      popMin st.future_events = some (e, rest) →
      e.message = .WakeUpSchedulerController →
      dispatch sched (popped st e) e rest = some st' → Step sched st st'
  | wakeupWorker {st e rest st'} :
      popMin st.future_events = some (e, rest) →
      e.message = .WakeUpWorkerController →
      dispatch sched (popped st e) e rest = some st' → Step sched st st'
  | wakeupIncoming {st e rest st'} :
      popMin st.future_events = some (e, rest) →
      e.message = .WakeUpIncomingController →
      dispatch sched (popped st e) e rest = some st' → Step sched st st'
  | incomingJobs {st e rest st' jobs} :
      popMin st.future_events = some (e, rest) →
      e.message = .IncomingJobs jobs →
      dispatch sched (popped st e) e rest = some st' → Step sched st st'
  | pastDue {st e rest st' jobs} :
      popMin st.future_events = some (e, rest) →
      e.message = .PastDue jobs →
      dispatch sched (popped st e) e rest = some st' → Step sched st st'
  | batchStart {st e rest st' bs} :
      popMin st.future_events = some (e, rest) →
      e.message = .BatchStart bs →
      dispatch sched (popped st e) e rest = some st' → Step sched st st'
  | batchDone {st e rest st' batch} :
      popMin st.future_events = some (e, rest) →
      e.message = .BatchDone batch →
      dispatch sched (popped st e) e rest = some st' → Step sched st st'

/-- Every step arises from the popped least event and the dispatch
function. -/
theorem Step_inv {sched st st'} (h : Step sched st st') :
    ∃ e rest, popMin st.future_events = some (e, rest) ∧
      dispatch sched (popped st e) e rest = some st' := by
  cases h <;> exact ⟨_, _, ‹_›, ‹_›⟩

/-- A run of n driver iterations. -/
inductive StepN (sched : SchedulerModel) : ℕ → Simulation → Simulation → Prop where
  | zero {st} : StepN sched 0 st st
  | succ {n st st1 st2} :
      Step sched st st1 → StepN sched n st1 st2 → StepN sched (n + 1) st st2

/-- C9: the driver is deterministic — two runs of the same length from the
same state (same configuration-derived incoming stream, workers and
scheduler) reach the same state and in particular record identical
processed_events.  Every transition is a function of the state: the heap
pop, the nuts dispatch order, and each handler are deterministic, and the
scheduler and incoming stream step their own seeded RNGs carried in the
state. -/
theorem run_deterministic :
    ∀ (sched : SchedulerModel) (n : ℕ) (s t t' : Simulation),
      StepN sched n s t → StepN sched n s t' →
      t = t' ∧ t.processed_events = t'.processed_events := by
  intro sched n
  induction n with
  | zero =>
    intro s t t' h1 h2
    cases h1
    cases h2
    exact ⟨rfl, rfl⟩
  | succ m ih =>
    intro s t t' h1 h2
    cases h1 with
    | succ hs1 hn1 =>
      cases h2 with
      | succ hs2 hn2 =>
        obtain ⟨e1, r1, hp1, hd1⟩ := Step_inv hs1
        obtain ⟨e2, r2, hp2, hd2⟩ := Step_inv hs2
        rw [hp1] at hp2
        simp only [Option.some.injEq, Prod.mk.injEq] at hp2
        obtain ⟨rfl, rfl⟩ := hp2
        rw [hd1] at hd2
        simp only [Option.some.injEq] at hd2
        obtain rfl := hd2
        exact ih _ _ _ hn1 hn2

end InferSim

namespace InferSim

/-- A one-event initial state for the determinism witness. -/
def s09 : Simulation := ⟨0, [⟨0, .WakeUpWorkerController⟩], [], [], [], [], 0⟩

/-- The state after dispatching the single wake-up event of s09. -/
def stW9 : Simulation := ⟨0, [], [⟨0, .WakeUpWorkerController⟩], [], [], [], 0⟩

/-- Witness for C9: two concrete one-step runs from s09 under FIFO reach the
same state with the same trace. -/
theorem run_deterministic_witness :
    stW9 = stW9 ∧ stW9.processed_events = stW9.processed_events :=
  run_deterministic FIFOSched 1 s09 stW9 stW9
    (.succ (.wakeupWorker rfl rfl rfl) .zero)
    (.succ (.wakeupWorker rfl rfl rfl) .zero)

end InferSim

namespace InferSim

/-!
The incoming stream composition (src/incoming.rs).  combined converts each
child generator from delay form to absolute time, merges them with
itertools kmerge_by (a binary min-heap of HeadTail cursors keyed by the
first element of each stream, with the predicate a.0 < b.0), and converts
the merge back to delay form by re-differencing.  The heap algorithms below
transcribe itertools: heapify sifts down from len/2 - 1 to 0; sift_down
picks the right child only when it is strictly smaller than the left, stops
as soon as the child is not strictly smaller than the parent, and handles a
final only-left-child; next replaces the head of the root cursor (or
swap-removes an exhausted root, moving the last cursor to the front) and
then sifts the root down.  Recursions carry fuel so that concrete runs
evaluate; the fuel bounds are never reached.
-/

/-- itertools HeadTail: a non-empty iterator split into its next element
and the remainder. -/
structure HeadTail (α : Type) where
  head : α
  tail : List α

instance [Inhabited α] : Inhabited (HeadTail α) := ⟨⟨default, []⟩⟩

/-- The elements a cursor still holds. -/
def HeadTail.toSeq (ht : HeadTail α) : List α := ht.head :: ht.tail

/-- Vec::swap. -/
def heapSwap [Inhabited α] (l : List α) (i j : ℕ) : List α :=
  (l.set i (l.getD j default)).set j (l.getD i default)

/-- The smaller child picked by sift_down: the right child only when it is
strictly smaller than the left. -/
def pickChild [Inhabited α] (lt : α → α → Bool) (heap : List α) (pos : ℕ) : ℕ :=
  if lt (heap.getD (2 * pos + 2) default) (heap.getD (2 * pos + 1) default) then
    2 * pos + 2
  else 2 * pos + 1

/-- itertools sift_down, one loop iteration per fuel unit. -/
def siftDownGo [Inhabited α] (lt : α → α → Bool) :
    ℕ → List α → ℕ → List α
  | 0, heap, _ => heap
  | fuel + 1, heap, pos =>
    if 2 * pos + 2 < heap.length then
      let child := pickChild lt heap pos
      if lt (heap.getD child default) (heap.getD pos default) then
        siftDownGo lt fuel (heapSwap heap pos child) child
      else heap
    else
      if 2 * pos + 2 = heap.length &&
          lt (heap.getD (2 * pos + 1) default) (heap.getD pos default) then
        heapSwap heap pos (2 * pos + 1)
      else heap

/-- itertools sift_down from a given index. -/
def siftDown [Inhabited α] (lt : α → α → Bool) (heap : List α) (pos : ℕ) :
    List α :=
  siftDownGo lt heap.length heap pos

/-- itertools heapify: sift_down at indices len/2 - 1 down to 0. -/
def heapifyGo [Inhabited α] (lt : α → α → Bool) :
    ℕ → List α → List α
  | 0, heap => heap
  | i + 1, heap => heapifyGo lt i (siftDown lt heap i)

/-- itertools heapify. -/
def heapify [Inhabited α] (lt : α → α → Bool) (heap : List α) : List α :=
  heapifyGo lt (heap.length / 2) heap

/-- KMergeBy::next: emit the root cursor's head; advance the root cursor or
swap-remove it when exhausted; sift the root down. -/
def kmergeNext [Inhabited α] (lt : α → α → Bool) :
    List (HeadTail α) → Option (α × List (HeadTail α))
  | [] => none
  | ht :: rest =>
    let ltHT : HeadTail α → HeadTail α → Bool := fun a b => lt a.head b.head
    match ht.tail with
    | nxt :: tl2 => some (ht.head, siftDown ltHT (⟨nxt, tl2⟩ :: rest) 0)
    | [] =>
      let heap2 :=
        match rest.getLast? with
        | none => []
        | some lastHt => lastHt :: rest.dropLast
      some (ht.head, siftDown ltHT heap2 0)

/-- The total number of elements the cursors still hold. -/
def heapSize (heap : List (HeadTail α)) : ℕ :=
  (heap.map fun ht => ht.toSeq.length).sum

/-- Exhaust the merge iterator. -/
def kmergeLoop [Inhabited α] (lt : α → α → Bool) :
    ℕ → List (HeadTail α) → List α
  | 0, _ => []
  | fuel + 1, heap =>
    match kmergeNext lt heap with
    | none => []
    | some (x, heap') => x :: kmergeLoop lt fuel heap'

/-- itertools kmerge_by over a finite list of finite streams. -/
def kmergeBy [Inhabited α] (lt : α → α → Bool) (models : List (List α)) :
    List α :=
  let heap := models.filterMap fun l =>
    match l with
    | [] => none
    | h :: t => some (⟨h, t⟩ : HeadTail α)
  let heap := heapify (fun a b => lt a.head b.head) heap
  kmergeLoop lt (heapSize heap) heap

/-- One timed batch of incoming jobs, in delay or absolute form. -/
abbrev DelayBatch := Duration × List IncomingJob

/-- Incoming::into_absolute (src/incoming.rs): running sum of the delays,
starting from time 0. -/
def intoAbsoluteGo (cur : Time) : List DelayBatch → List (Time × List IncomingJob)
  | [] => []
  | (d, b) :: rest => (cur + d, b) :: intoAbsoluteGo (cur + d) rest

/-- Incoming::into_absolute from time 0. -/
def into_absolute (l : List DelayBatch) : List (Time × List IncomingJob) :=
  intoAbsoluteGo 0 l

/-- The scan back to delay form inside combined (src/incoming.rs). -/
def scanBackGo (cur : Time) : List (Time × List IncomingJob) → List DelayBatch
  | [] => []
  | (t, b) :: rest => (t - cur, b) :: scanBackGo t rest

/-- combined (src/incoming.rs): absolute-time conversion, k-way merge by
a.0 < b.0, and conversion back to delay form. -/
def combined (models : List (List DelayBatch)) : List DelayBatch :=
  scanBackGo 0
    (kmergeBy (fun a b => decide (a.1 < b.1)) (models.map into_absolute))

/-- Child i's job-id range [i*10^6, (i+1)*10^6) (from_config assigns base
ids with step_by(1000000), src/incoming.rs). -/
def inRangeB (i : ℕ) (id : ℕ) : Bool :=
  decide (i * 1000000 ≤ id ∧ id < (i + 1) * 1000000)

/-- Whether a timed batch belongs to child i, judged by its job ids. -/
def belongsTo (i : ℕ) (p : Time × List IncomingJob) : Bool :=
  p.2.any fun jb => inRangeB i jb.id

end InferSim

namespace InferSim

/-! Permutation facts about the heap operations. -/

theorem set_getD_perm [Inhabited α] :
    ∀ (l : List α) (k : ℕ), k < l.length → ∀ a : α,
      (l.getD k default :: l.set k a).Perm (a :: l) := by
  intro l
  induction l with
  | nil => intro k hk; simp at hk
  | cons b t ih =>
    intro k hk a
    cases k with
    | zero =>
      simp only [List.getD_cons_zero, List.set_cons_zero]
      exact List.Perm.swap a b t
    | succ k =>
      simp only [List.getD_cons_succ, List.set_cons_succ, List.length_cons] at hk ⊢
      refine (List.Perm.swap b (t.getD k default) (t.set k a)).trans ?_
      exact ((ih k (by omega) a).cons b).trans (List.Perm.swap a b t)

theorem heapSwap_perm [Inhabited α] :
    ∀ (l : List α) (i j : ℕ), i < j → j < l.length → (heapSwap l i j).Perm l := by
  intro l
  induction l with
  | nil => intro i j hij hj; simp at hj
  | cons b t ih =>
    intro i j hij hj
    cases i with
    | zero =>
      cases j with
      | zero => omega
      | succ j =>
        simp only [List.length_cons] at hj
        unfold heapSwap
        simp only [List.getD_cons_succ, List.set_cons_zero, List.set_cons_succ,
          List.getD_cons_zero]
        exact set_getD_perm t j (by omega) b
    | succ i =>
      cases j with
      | zero => omega
      | succ j =>
        simp only [List.length_cons] at hj
        unfold heapSwap
        simp only [List.getD_cons_succ, List.set_cons_succ]
        exact (ih i j (by omega) (by omega)).cons b

theorem siftDownGo_perm [Inhabited α] (lt : α → α → Bool) :
    ∀ fuel (heap : List α) pos, (siftDownGo lt fuel heap pos).Perm heap := by
  intro fuel
  induction fuel with
  | zero => intro heap pos; exact List.Perm.refl _
  | succ n ih =>
    intro heap pos
    rw [siftDownGo]
    simp only
    have hpc1 : 2 * pos + 1 ≤ pickChild lt heap pos := by
      unfold pickChild
      split <;> omega
    have hpc2 : pickChild lt heap pos ≤ 2 * pos + 2 := by
      unfold pickChild
      split <;> omega
    by_cases h1 : 2 * pos + 2 < heap.length
    · rw [if_pos h1]
      by_cases h2 : lt (heap.getD (pickChild lt heap pos) default)
          (heap.getD pos default) = true
      · rw [if_pos h2]
        exact (ih _ _).trans (heapSwap_perm heap pos _ (by omega) (by omega))
      · rw [if_neg h2]
    · rw [if_neg h1]
      by_cases h3 : (2 * pos + 2 = heap.length &&
          lt (heap.getD (2 * pos + 1) default) (heap.getD pos default)) = true
      · rw [if_pos h3]
        simp only [Bool.and_eq_true, decide_eq_true_eq] at h3
        exact heapSwap_perm heap pos _ (by omega) (by omega)
      · rw [if_neg h3]

theorem siftDown_perm [Inhabited α] (lt : α → α → Bool) (heap : List α) (pos : ℕ) :
    (siftDown lt heap pos).Perm heap :=
  siftDownGo_perm lt heap.length heap pos

theorem heapifyGo_perm [Inhabited α] (lt : α → α → Bool) :
    ∀ n (heap : List α), (heapifyGo lt n heap).Perm heap := by
  intro n
  induction n with
  | zero => intro heap; exact List.Perm.refl _
  | succ m ih =>
    intro heap
    exact (ih _).trans (siftDown_perm lt heap m)

theorem heapify_perm [Inhabited α] (lt : α → α → Bool) (heap : List α) :
    (heapify lt heap).Perm heap :=
  heapifyGo_perm lt _ heap

/-- The shape of a successful merge step: the emitted element is the root
cursor's head, and the new heap is a permutation of the cursors with the
root cursor advanced (or dropped when exhausted). -/
theorem kmergeNext_some_shape [Inhabited α] {lt : α → α → Bool}
    {heap heap' : List (HeadTail α)} {x : α}
    (h : kmergeNext lt heap = some (x, heap')) :
    ∃ h0 rest, heap = h0 :: rest ∧ x = h0.head ∧
      ((∃ nxt tl2, h0.tail = nxt :: tl2 ∧
          heap'.Perm (HeadTail.mk nxt tl2 :: rest)) ∨
        (h0.tail = [] ∧ heap'.Perm rest)) := by
  match heap with
  | [] => exact absurd h (by simp [kmergeNext])
  | h0 :: rest =>
    refine ⟨h0, rest, rfl, ?_⟩
    rw [kmergeNext] at h
    rcases htl : h0.tail with _ | ⟨nxt, tl2⟩ <;> simp only [htl] at h <;>
      obtain ⟨rfl, rfl⟩ := h
    · refine ⟨rfl, Or.inr ⟨rfl, ?_⟩⟩
      refine (siftDown_perm _ _ _).trans ?_
      rcases hlast : rest.getLast? with _ | lastHt <;> simp only [hlast]
      · have : rest = [] := by simpa using hlast
        rw [this]
      · have hne : rest ≠ [] := by
          rintro rfl
          simp at hlast
        have hl : lastHt = rest.getLast hne := by
          rw [List.getLast?_eq_getLast rest hne] at hlast
          exact (Option.some.injEq _ _).mp hlast.symm
        have hdl := List.dropLast_append_getLast hne
        rw [hl]
        refine (List.perm_append_singleton _ _).symm.trans ?_
        rw [hdl]
    · exact ⟨rfl, Or.inl ⟨nxt, tl2, rfl, siftDown_perm _ _ _⟩⟩

end InferSim

namespace InferSim

/-! The heap invariant and the sift-down specification, stated for merges
keyed by a rational key (the incoming merge keys batches by their absolute
time). -/

/-- Comparison by a rational key, the shape of every less_than the merge
uses. -/
def keyLt (k : α → ℚ) : α → α → Bool := fun a b => decide (k a < k b)

/-- Binary-heap order below index i: every parent at index at least i is no
greater than its children. -/
def HeapFrom (k : α → ℚ) [Inhabited α] (i : ℕ) (d : List α) : Prop :=
  ∀ c, 0 < c → c < d.length → i ≤ (c - 1) / 2 →
    k (d.getD ((c - 1) / 2) default) ≤ k (d.getD c default)

theorem heapSwap_length [Inhabited α] (l : List α) (i j : ℕ) :
    (heapSwap l i j).length = l.length := by
  simp [heapSwap]

theorem heapSwap_getD_fst [Inhabited α] (l : List α) {i j : ℕ}
    (hi : i < l.length) (hj : j < l.length) (hne : i ≠ j) :
    (heapSwap l i j).getD i default = l.getD j default := by
  unfold heapSwap
  rw [List.getD_eq_getElem _ _ (by simpa using hi),
    List.getElem_set_ne (by omega), List.getElem_set_self (by simpa using hi),
    List.getD_eq_getElem _ _ hj]

theorem heapSwap_getD_snd [Inhabited α] (l : List α) {i j : ℕ}
    (hi : i < l.length) (hj : j < l.length) :
    (heapSwap l i j).getD j default = l.getD i default := by
  unfold heapSwap
  rw [List.getD_eq_getElem _ _ (by simpa using hj),
    List.getElem_set_self (by simpa using hj), List.getD_eq_getElem _ _ hi]

theorem heapSwap_getD_other [Inhabited α] (l : List α) {i j m : ℕ}
    (hmi : m ≠ i) (hmj : m ≠ j) :
    (heapSwap l i j).getD m default = l.getD m default := by
  unfold heapSwap
  by_cases hm : m < l.length
  · rw [List.getD_eq_getElem _ _ (by simpa using hm),
      List.getElem_set_ne (by omega), List.getElem_set_ne (by omega),
      List.getD_eq_getElem _ _ hm]
  · rw [List.getD_eq_default _ _ (by simpa using not_lt.mp hm),
      List.getD_eq_default _ _ (by simpa using not_lt.mp hm)]

theorem pickChild_bounds [Inhabited α] (lt : α → α → Bool) (heap : List α)
    (pos : ℕ) : 2 * pos + 1 ≤ pickChild lt heap pos ∧
      pickChild lt heap pos ≤ 2 * pos + 2 := by
  unfold pickChild
  split <;> omega

/-- The picked child's key is no greater than either child's key. -/
theorem pickChild_min (k : α → ℚ) [Inhabited α] (heap : List α) (pos : ℕ) :
    ∀ c, c = 2 * pos + 1 ∨ c = 2 * pos + 2 →
      k (heap.getD (pickChild (keyLt k) heap pos) default) ≤
        k (heap.getD c default) := by
  intro c hc
  unfold pickChild
  split
  · next h =>
    simp only [keyLt, decide_eq_true_eq] at h
    rcases hc with rfl | rfl
    · exact le_of_lt h
    · exact le_refl _
  · next h =>
    simp only [keyLt, decide_eq_true_eq, not_lt] at h
    rcases hc with rfl | rfl
    · exact le_refl _
    · exact h

end InferSim

namespace InferSim

/-- sift_down restores the heap order at pos, assuming the order holds at
every other parent at index at least i and the grandparent link: the parent
of pos is no greater than the children of pos. -/
theorem siftDownGo_spec (k : α → ℚ) [Inhabited α] (i : ℕ) :
    ∀ fuel (heap : List α) pos,
      heap.length ≤ fuel + pos → i ≤ pos →
      (∀ c, 0 < c → c < heap.length → i ≤ (c - 1) / 2 → (c - 1) / 2 ≠ pos →
        k (heap.getD ((c - 1) / 2) default) ≤ k (heap.getD c default)) →
      (∀ c, (c = 2 * pos + 1 ∨ c = 2 * pos + 2) → c < heap.length →
        0 < pos → i ≤ (pos - 1) / 2 →
        k (heap.getD ((pos - 1) / 2) default) ≤ k (heap.getD c default)) →
      HeapFrom k i (siftDownGo (keyLt k) fuel heap pos) := by
  intro fuel
  induction fuel with
  | zero =>
    intro heap pos hfu hip ha hb
    rw [siftDownGo]
    intro c hc0 hclen hci
    by_cases hcp : (c - 1) / 2 = pos
    · omega
    · exact ha c hc0 hclen hci hcp
  | succ n ih =>
    intro heap pos hfu hip ha hb
    rw [siftDownGo]
    simp only
    by_cases h1 : 2 * pos + 2 < heap.length
    · rw [if_pos h1]
      obtain ⟨hpc1, hpc2⟩ := pickChild_bounds (keyLt k) heap pos
      have hchlen : pickChild (keyLt k) heap pos < heap.length := by omega
      have hposch : pos < pickChild (keyLt k) heap pos := by omega
      have hparch : (pickChild (keyLt k) heap pos - 1) / 2 = pos := by omega
      have hposlen : pos < heap.length := by omega
      by_cases h2 : keyLt k (heap.getD (pickChild (keyLt k) heap pos) default)
          (heap.getD pos default) = true
      · rw [if_pos h2]
        simp only [keyLt, decide_eq_true_eq] at h2
        refine ih (heapSwap heap pos (pickChild (keyLt k) heap pos))
          (pickChild (keyLt k) heap pos) ?_ (by omega) ?_ ?_
        · rw [heapSwap_length]
          omega
        · intro c hc0 hclen hci hcch
          rw [heapSwap_length] at hclen
          by_cases hcpar : (c - 1) / 2 = pos
          · rw [hcpar, heapSwap_getD_fst heap hposlen hchlen (by omega)]
            have hcin : c = 2 * pos + 1 ∨ c = 2 * pos + 2 := by omega
            by_cases hcc : c = pickChild (keyLt k) heap pos
            · rw [hcc, heapSwap_getD_snd heap hposlen hchlen]
              exact le_of_lt h2
            · rw [heapSwap_getD_other heap (by omega) hcc]
              exact pickChild_min k heap pos c hcin
          · by_cases hcc : c = pos
            · have h0pos : 0 < pos := by omega
              have hpp : (c - 1) / 2 ≠ pos := hcpar
              have hpp2 : (c - 1) / 2 ≠ pickChild (keyLt k) heap pos := by omega
              rw [heapSwap_getD_other heap hpp hpp2, hcc,
                heapSwap_getD_fst heap hposlen hchlen (by omega)]
              exact hb (pickChild (keyLt k) heap pos) (by omega) hchlen h0pos
                (by omega)
            · by_cases hcc2 : c = pickChild (keyLt k) heap pos
              · omega
              · rw [heapSwap_getD_other heap hcpar hcch,
                  heapSwap_getD_other heap hcc hcc2]
                exact ha c hc0 hclen hci hcpar
        · intro c hcin hclen h0ch hich
          rw [heapSwap_length] at hclen
          rw [hparch, heapSwap_getD_fst heap hposlen hchlen (by omega),
            heapSwap_getD_other heap (show c ≠ pos by omega)
              (show c ≠ pickChild (keyLt k) heap pos by omega)]
          have hpar2 : (c - 1) / 2 = pickChild (keyLt k) heap pos := by omega
          rw [← hpar2]
          exact ha c (by omega) hclen (by omega) (by omega)
      · rw [if_neg h2]
        simp only [keyLt, decide_eq_true_eq, not_lt] at h2
        intro c hc0 hclen hci
        by_cases hcp : (c - 1) / 2 = pos
        · rw [hcp]
          have hcin : c = 2 * pos + 1 ∨ c = 2 * pos + 2 := by omega
          exact le_trans h2 (pickChild_min k heap pos c hcin)
        · exact ha c hc0 hclen hci hcp
    · rw [if_neg h1]
      by_cases h3 : (decide (2 * pos + 2 = heap.length) &&
          keyLt k (heap.getD (2 * pos + 1) default) (heap.getD pos default)) = true
      · rw [if_pos h3]
        simp only [Bool.and_eq_true, decide_eq_true_eq, keyLt] at h3
        obtain ⟨hlen2, hlt⟩ := h3
        have hposlen : pos < heap.length := by omega
        have hchlen : 2 * pos + 1 < heap.length := by omega
        intro c hc0 hclen hci
        rw [heapSwap_length] at hclen
        by_cases hcp : (c - 1) / 2 = pos
        · have hc : c = 2 * pos + 1 := by omega
          rw [hcp, hc, heapSwap_getD_fst heap hposlen hchlen (by omega),
            heapSwap_getD_snd heap hposlen hchlen]
          exact le_of_lt hlt
        · by_cases hcc : c = pos
          · have h0pos : 0 < pos := by omega
            rw [heapSwap_getD_other heap hcp (show (c - 1) / 2 ≠ 2 * pos + 1 by omega),
              hcc, heapSwap_getD_fst heap hposlen hchlen (by omega)]
            exact hb (2 * pos + 1) (Or.inl rfl) hchlen h0pos (by omega)
          · by_cases hcc2 : c = 2 * pos + 1
            · omega
            · rw [heapSwap_getD_other heap hcp (show (c - 1) / 2 ≠ 2 * pos + 1 by omega),
                heapSwap_getD_other heap hcc hcc2]
              exact ha c hc0 hclen hci hcp
      · rw [if_neg h3]
        intro c hc0 hclen hci
        by_cases hcp : (c - 1) / 2 = pos
        · have hc : c = 2 * pos + 1 := by omega
          have hlen2 : 2 * pos + 2 = heap.length := by omega
          rw [hc, show (2 * pos + 1 - 1) / 2 = pos by omega]
          have hnlt : ¬(keyLt k (heap.getD (2 * pos + 1) default)
              (heap.getD pos default) = true) := by
            intro hcontra
            exact h3 (by rw [Bool.and_eq_true]; exact ⟨by simp [hlen2], hcontra⟩)
          simp only [keyLt, decide_eq_true_eq, not_lt] at hnlt
          exact hnlt
        · exact ha c hc0 hclen hci hcp

end InferSim

namespace InferSim

theorem siftDown_spec (k : α → ℚ) [Inhabited α] (i : ℕ) (heap : List α) (pos : ℕ)
    (hip : i ≤ pos)
    (ha : ∀ c, 0 < c → c < heap.length → i ≤ (c - 1) / 2 → (c - 1) / 2 ≠ pos →
      k (heap.getD ((c - 1) / 2) default) ≤ k (heap.getD c default))
    (hb : ∀ c, (c = 2 * pos + 1 ∨ c = 2 * pos + 2) → c < heap.length →
      0 < pos → i ≤ (pos - 1) / 2 →
      k (heap.getD ((pos - 1) / 2) default) ≤ k (heap.getD c default)) :
    HeapFrom k i (siftDown (keyLt k) heap pos) :=
  siftDownGo_spec k i heap.length heap pos (by omega) hip ha hb

theorem heapifyGo_spec (k : α → ℚ) [Inhabited α] :
    ∀ m (heap : List α), HeapFrom k m heap →
      HeapFrom k 0 (heapifyGo (keyLt k) m heap) := by
  intro m
  induction m with
  | zero => intro heap h; exact h
  | succ m ih =>
    intro heap h
    rw [heapifyGo]
    refine ih _ (siftDown_spec k m heap m le_rfl ?_ ?_)
    · intro c hc0 hclen hci hcm
      exact h c hc0 hclen (by omega)
    · intro c hcin hclen h0m him
      omega

theorem heapify_spec (k : α → ℚ) [Inhabited α] (heap : List α) :
    HeapFrom k 0 (heapify (keyLt k) heap) := by
  unfold heapify
  refine heapifyGo_spec k (heap.length / 2) heap ?_
  intro c hc0 hclen hci
  omega

/-- In a heap the root has the least key. -/
theorem heapFrom_root_min (k : α → ℚ) [Inhabited α] {d : List α}
    (h : HeapFrom k 0 d) : ∀ j, j < d.length →
      k (d.getD 0 default) ≤ k (d.getD j default) := by
  intro j
  induction j using Nat.strong_induction_on with
  | _ j ih =>
    intro hj
    cases j with
    | zero => exact le_refl _
    | succ m =>
      refine le_trans (ih ((m + 1 - 1) / 2) (by omega) (by omega)) ?_
      exact h (m + 1) (by omega) hj (by omega)

theorem getD_dropLast [Inhabited α] (l : List α) (j : ℕ) (hj : j + 1 < l.length) :
    l.dropLast.getD j default = l.getD j default := by
  rw [List.getD_eq_getElem _ _ (by simp; omega), List.getD_eq_getElem _ _ (by omega),
    List.getElem_dropLast]

/-- A merge step preserves the heap order of the cursors. -/
theorem kmergeNext_preserves (k : α → ℚ) [Inhabited α]
    {heap heap' : List (HeadTail α)} {x : α}
    (hH : HeapFrom (fun ht : HeadTail α => k ht.head) 0 heap)
    (h : kmergeNext (keyLt k) heap = some (x, heap')) :
    HeapFrom (fun ht : HeadTail α => k ht.head) 0 heap' := by
  match heap with
  | [] => exact absurd h (by simp [kmergeNext])
  | h0 :: rest =>
    rw [kmergeNext] at h
    rcases htl : h0.tail with _ | ⟨nxt, tl2⟩ <;> simp only [htl] at h <;>
      obtain ⟨rfl, rfl⟩ := h
    · rcases hlast : rest.getLast? with _ | lastHt <;> simp only [hlast]
      · have hrest : rest = [] := by simpa using hlast
        refine siftDown_spec (fun ht : HeadTail α => k ht.head) 0 [] 0 le_rfl ?_ ?_
        · intro c hc0 hclen hci hcne
          simp at hclen
        · intro c hcin hclen h0p hip
          omega
      · have hne : rest ≠ [] := by
          rintro rfl
          simp at hlast
        refine siftDown_spec (fun ht : HeadTail α => k ht.head) 0
          (lastHt :: rest.dropLast) 0 le_rfl ?_ ?_
        · intro c hc0 hclen hci hcne
          have hc3 : 3 ≤ c := by omega
          have hlen : (lastHt :: rest.dropLast).length = rest.length := by
            have h1 : 0 < rest.length := List.length_pos.mpr hne
            simp only [List.length_cons, List.length_dropLast]
            omega
          rw [hlen] at hclen
          obtain ⟨m, rfl⟩ : ∃ m, c = m + 1 := ⟨c - 1, by omega⟩
          obtain ⟨p, hp⟩ : ∃ p, (m + 1 - 1) / 2 = p + 1 :=
            ⟨(m + 1 - 1) / 2 - 1, by omega⟩
          rw [hp, List.getD_cons_succ, List.getD_cons_succ,
            getD_dropLast rest p (by omega), getD_dropLast rest m (by omega)]
          have := hH (m + 1) (by omega) (by simp; omega) (by omega)
          rw [hp] at this
          simpa [List.getD_cons_succ] using this
        · intro c hcin hclen h0p hip
          omega
    · refine siftDown_spec (fun ht : HeadTail α => k ht.head) 0
        (HeadTail.mk nxt tl2 :: rest) 0 le_rfl ?_ ?_
      · intro c hc0 hclen hci hcne
        have hc3 : 3 ≤ c := by omega
        obtain ⟨m, rfl⟩ : ∃ m, c = m + 1 := ⟨c - 1, by omega⟩
        obtain ⟨p, hp⟩ : ∃ p, (m + 1 - 1) / 2 = p + 1 :=
          ⟨(m + 1 - 1) / 2 - 1, by omega⟩
        rw [hp, List.getD_cons_succ, List.getD_cons_succ]
        have := hH (m + 1) (by omega) (by simpa using hclen) (by omega)
        rw [hp] at this
        simpa [List.getD_cons_succ] using this
      · intro c hcin hclen h0p hip
        omega

end InferSim

namespace InferSim

/-- Every merged element comes from one of the cursors. -/
theorem kmergeLoop_mem [Inhabited α] (lt : α → α → Bool) :
    ∀ fuel (heap : List (HeadTail α)) y, y ∈ kmergeLoop lt fuel heap →
      ∃ ht ∈ heap, y ∈ ht.toSeq := by
  intro fuel
  induction fuel with
  | zero => intro heap y hy; exact absurd hy (by simp [kmergeLoop])
  | succ n ih =>
    intro heap y hy
    rw [kmergeLoop] at hy
    rcases hnext : kmergeNext lt heap with _ | ⟨x, heap'⟩ <;> rw [hnext] at hy
    · exact absurd hy (List.not_mem_nil y)
    · obtain ⟨h0, rest, rfl, rfl, hshape⟩ := kmergeNext_some_shape hnext
      rcases List.mem_cons.mp hy with rfl | hy'
      · exact ⟨h0, List.mem_cons_self _ _, List.mem_cons_self _ _⟩
      · obtain ⟨ht', hht', hyht⟩ := ih heap' y hy'
        rcases hshape with ⟨nxt, tl2, htl, hperm⟩ | ⟨htl, hperm⟩
        · rcases List.mem_cons.mp (hperm.mem_iff.mp hht') with rfl | hmem
          · refine ⟨h0, List.mem_cons_self _ _, ?_⟩
            unfold HeadTail.toSeq at hyht ⊢
            rw [htl]
            exact List.mem_cons_of_mem _ hyht
          · exact ⟨ht', List.mem_cons_of_mem _ hmem, hyht⟩
        · exact ⟨ht', List.mem_cons_of_mem _ (hperm.mem_iff.mp hht'), hyht⟩

/-- The root cursor's head has the least key among all cursors. -/
theorem heapFrom_head_le (k : α → ℚ) [Inhabited α] {h0 : HeadTail α}
    {rest : List (HeadTail α)}
    (hH : HeapFrom (fun ht : HeadTail α => k ht.head) 0 (h0 :: rest)) :
    ∀ ht ∈ h0 :: rest, k h0.head ≤ k ht.head := by
  intro ht hmem
  obtain ⟨j, hj, rfl⟩ := List.mem_iff_getElem.mp hmem
  have := heapFrom_root_min (fun ht : HeadTail α => k ht.head) hH j hj
  rw [List.getD_eq_getElem _ _ hj] at this
  simpa using this

/-- A sorted cursor's head has the least key in the cursor. -/
theorem sorted_head_le (k : α → ℚ) {a : α} {l : List α}
    (h : (a :: l).Sorted fun x y => k x ≤ k y) :
    ∀ b ∈ a :: l, k a ≤ k b := by
  intro b hb
  rcases List.mem_cons.mp hb with rfl | hb'
  · exact le_refl _
  · exact (List.sorted_cons.mp h).1 b hb'

/-- The merge emits elements in non-decreasing key order when the cursors
form a heap and each cursor is sorted. -/
theorem kmergeLoop_sorted (k : α → ℚ) [Inhabited α] :
    ∀ fuel (heap : List (HeadTail α)),
      HeapFrom (fun ht : HeadTail α => k ht.head) 0 heap →
      (∀ ht ∈ heap, ht.toSeq.Sorted fun a b => k a ≤ k b) →
      (kmergeLoop (keyLt k) fuel heap).Sorted fun a b => k a ≤ k b := by
  intro fuel
  induction fuel with
  | zero => intro heap _ _; exact List.sorted_nil
  | succ n ih =>
    intro heap hH hS
    rw [kmergeLoop]
    rcases hnext : kmergeNext (keyLt k) heap with _ | ⟨x, heap'⟩
    · exact List.sorted_nil
    · simp only
      obtain ⟨h0, rest, rfl, rfl, hshape⟩ := kmergeNext_some_shape hnext
      have hH' := kmergeNext_preserves k hH hnext
      have hS' : ∀ ht ∈ heap', ht.toSeq.Sorted fun a b => k a ≤ k b := by
        intro ht hht
        rcases hshape with ⟨nxt, tl2, htl, hperm⟩ | ⟨htl, hperm⟩
        · rcases List.mem_cons.mp (hperm.mem_iff.mp hht) with rfl | hmem
          · have := hS h0 (List.mem_cons_self _ _)
            unfold HeadTail.toSeq at this ⊢
            rw [htl] at this
            exact (List.sorted_cons.mp this).2
          · exact hS ht (List.mem_cons_of_mem _ hmem)
        · exact hS ht (List.mem_cons_of_mem _ (hperm.mem_iff.mp hht))
      refine List.sorted_cons.mpr ⟨?_, ih heap' hH' hS'⟩
      intro b hb
      obtain ⟨ht', hht', hbht⟩ := kmergeLoop_mem (keyLt k) n heap' b hb
      rcases hshape with ⟨nxt, tl2, htl, hperm⟩ | ⟨htl, hperm⟩
      · rcases List.mem_cons.mp (hperm.mem_iff.mp hht') with rfl | hmem
        · have := hS h0 (List.mem_cons_self _ _)
          unfold HeadTail.toSeq at this hbht
          rw [htl] at this
          exact (List.sorted_cons.mp this).1 b (by simpa using hbht)
        · refine le_trans (heapFrom_head_le k hH ht' (List.mem_cons_of_mem _ hmem)) ?_
          exact sorted_head_le k (hS ht' (List.mem_cons_of_mem _ hmem)) b hbht
      · have hmem := hperm.mem_iff.mp hht'
        refine le_trans (heapFrom_head_le k hH ht' (List.mem_cons_of_mem _ hmem)) ?_
        exact sorted_head_le k (hS ht' (List.mem_cons_of_mem _ hmem)) b hbht

end InferSim

namespace InferSim

/-- The elements of the cursors whose head satisfies q, in cursor order. -/
def posJoin (q : α → Bool) (heap : List (HeadTail α)) : List α :=
  ((heap.filter fun ht => q ht.head).map HeadTail.toSeq).join

theorem posJoin_perm (q : α → Bool) {h1 h2 : List (HeadTail α)}
    (hp : h1.Perm h2) (hc : h1.countP (fun ht => q ht.head) ≤ 1) :
    posJoin q h1 = posJoin q h2 := by
  have hpf := hp.filter (fun ht => q ht.head)
  have hlen : (h1.filter fun ht => q ht.head).length ≤ 1 := by
    rw [← List.countP_eq_length_filter]
    exact hc
  rcases hf1 : h1.filter (fun ht => q ht.head) with _ | ⟨a, tl⟩
  · rw [hf1] at hpf
    unfold posJoin
    rw [hf1, ← hpf.nil_eq]
  · rw [hf1] at hpf hlen
    have htl : tl = [] := by
      cases tl with
      | nil => rfl
      | cons b tb => simp at hlen
    subst htl
    have hf2 := List.singleton_perm.mp hpf
    unfold posJoin
    rw [hf1, hf2]

theorem heapSize_perm {h1 h2 : List (HeadTail α)} (hp : h1.Perm h2) :
    heapSize h1 = heapSize h2 := by
  unfold heapSize
  exact (hp.map fun ht => ht.toSeq.length).sum_eq

theorem heapSize_eq_zero {heap : List (HeadTail α)} (h : heapSize heap = 0) :
    heap = [] := by
  cases heap with
  | nil => rfl
  | cons ht rest => simp [heapSize, HeadTail.toSeq] at h

/-- With pure cursors (each cursor all-in or all-out of q) of which at most
one is in, filtering the merged output by q yields exactly the in-cursor's
elements. -/
theorem kmergeLoop_filter (q : α → Bool) [Inhabited α] (lt : α → α → Bool) :
    ∀ fuel (heap : List (HeadTail α)),
      heapSize heap ≤ fuel →
      (∀ ht ∈ heap, ∀ y ∈ ht.toSeq, q y = q ht.head) →
      heap.countP (fun ht => q ht.head) ≤ 1 →
      (kmergeLoop lt fuel heap).filter q = posJoin q heap := by
  intro fuel
  induction fuel with
  | zero =>
    intro heap hfs _ _
    have : heap = [] := heapSize_eq_zero (Nat.le_zero.mp hfs)
    subst this
    simp [kmergeLoop, posJoin]
  | succ n ih =>
    intro heap hfs hpure hcnt
    rw [kmergeLoop]
    rcases hnext : kmergeNext lt heap with _ | ⟨x, heap'⟩
    · cases heap with
      | nil => simp [posJoin]
      | cons h0 rest =>
        exfalso
        rw [kmergeNext] at hnext
        rcases htl : h0.tail with _ | ⟨nxt, tl2⟩ <;> simp [htl] at hnext
    · simp only
      obtain ⟨h0, rest, rfl, rfl, hshape⟩ := kmergeNext_some_shape hnext
      rcases hshape with ⟨nxt, tl2, htl, hperm⟩ | ⟨htl, hperm⟩
      · have hnmem : nxt ∈ h0.toSeq := by
          unfold HeadTail.toSeq
          rw [htl]
          exact List.mem_cons_of_mem _ (List.mem_cons_self _ _)
        have hq2 : q nxt = q h0.head :=
          hpure h0 (List.mem_cons_self _ _) nxt hnmem
        have hpureA : ∀ ht ∈ HeadTail.mk nxt tl2 :: rest, ∀ y ∈ ht.toSeq,
            q y = q ht.head := by
          intro ht hht y hy
          rcases List.mem_cons.mp hht with rfl | hm
          · have hyh0 : y ∈ h0.toSeq := by
              unfold HeadTail.toSeq at hy ⊢
              rw [htl]
              exact List.mem_cons_of_mem _ hy
            rw [hpure h0 (List.mem_cons_self _ _) y hyh0]
            exact hq2.symm
          · exact hpure ht (List.mem_cons_of_mem _ hm) y hy
        have hpure' : ∀ ht ∈ heap', ∀ y ∈ ht.toSeq, q y = q ht.head :=
          fun ht hht => hpureA ht (hperm.mem_iff.mp hht)
        have hcntA : (HeadTail.mk nxt tl2 :: rest).countP
            (fun ht => q ht.head) ≤ 1 := by
          rw [List.countP_cons] at hcnt ⊢
          simpa [hq2] using hcnt
        have hcnt' : heap'.countP (fun ht => q ht.head) ≤ 1 := by
          rw [hperm.countP_eq]
          exact hcntA
        have hsz : heapSize heap' ≤ n := by
          have h1 : heapSize heap' = heapSize (HeadTail.mk nxt tl2 :: rest) :=
            heapSize_perm hperm
          have h2 : heapSize (h0 :: rest) =
              h0.tail.length + 1 + heapSize rest := by
            simp [heapSize, HeadTail.toSeq]
          have h3 : heapSize (HeadTail.mk nxt tl2 :: rest) =
              tl2.length + 1 + heapSize rest := by
            simp [heapSize, HeadTail.toSeq]
          rw [htl] at h2
          simp only [List.length_cons] at h2
          omega
        have hrec := ih heap' hsz hpure' hcnt'
        have hpj' : posJoin q heap' =
            posJoin q (HeadTail.mk nxt tl2 :: rest) :=
          posJoin_perm q hperm hcnt'
        rw [List.filter_cons, hrec, hpj']
        cases hq : q h0.head with
        | false =>
          simp only [hq, Bool.false_eq_true, if_false]
          unfold posJoin
          simp only [List.filter_cons]
          rw [show q (HeadTail.mk nxt tl2).head = false from hq2.trans hq, hq]
          simp
        | true =>
          simp only [hq, if_true]
          have hcr : rest.countP (fun ht => q ht.head) = 0 := by
            rw [List.countP_cons] at hcnt
            simp only [hq, if_true] at hcnt
            omega
          have hfr : rest.filter (fun ht => q ht.head) = [] := by
            refine List.length_eq_zero.mp ?_
            rw [← List.countP_eq_length_filter]
            exact hcr
          unfold posJoin
          simp only [List.filter_cons, hfr]
          rw [show q (HeadTail.mk nxt tl2).head = true from hq2.trans hq, hq]
          simp [HeadTail.toSeq, htl]
      · have hpure' : ∀ ht ∈ heap', ∀ y ∈ ht.toSeq, q y = q ht.head :=
          fun ht hht =>
            hpure ht (List.mem_cons_of_mem _ (hperm.mem_iff.mp hht))
        have hcntR : rest.countP (fun ht => q ht.head) ≤ 1 := by
          rw [List.countP_cons] at hcnt
          omega
        have hcnt' : heap'.countP (fun ht => q ht.head) ≤ 1 := by
          rw [hperm.countP_eq]
          exact hcntR
        have hsz : heapSize heap' ≤ n := by
          have h1 : heapSize heap' = heapSize rest := heapSize_perm hperm
          have h2 : heapSize (h0 :: rest) =
              h0.tail.length + 1 + heapSize rest := by
            simp [heapSize, HeadTail.toSeq]
          rw [htl] at h2
          simp only [List.length_nil] at h2
          omega
        have hrec := ih heap' hsz hpure' hcnt'
        have hpj' : posJoin q heap' = posJoin q rest :=
          posJoin_perm q hperm hcnt'
        rw [List.filter_cons, hrec, hpj']
        cases hq : q h0.head with
        | false =>
          simp only [hq, Bool.false_eq_true, if_false]
          unfold posJoin
          simp only [List.filter_cons]
          rw [hq]
          simp
        | true =>
          simp only [hq, if_true]
          have hcr : rest.countP (fun ht => q ht.head) = 0 := by
            rw [List.countP_cons] at hcnt
            simp only [hq, if_true] at hcnt
            omega
          have hfr : rest.filter (fun ht => q ht.head) = [] := by
            refine List.length_eq_zero.mp ?_
            rw [← List.countP_eq_length_filter]
            exact hcr
          unfold posJoin
          simp only [List.filter_cons, hfr, hq]
          simp [HeadTail.toSeq, htl]

end InferSim

namespace InferSim

/-- Converting back to absolute time undoes the delay-form scan. -/
theorem intoAbsoluteGo_scanBackGo :
    ∀ (l : List (Time × List IncomingJob)) (cur : Time),
      intoAbsoluteGo cur (scanBackGo cur l) = l := by
  intro l
  induction l with
  | nil => intro cur; rfl
  | cons p rest ih =>
    intro cur
    obtain ⟨t, b⟩ := p
    show (cur + (t - cur), b) ::
        intoAbsoluteGo (cur + (t - cur)) (scanBackGo t rest) = (t, b) :: rest
    rw [show cur + (t - cur) = t by ring, ih t]

/-- With non-negative delays the absolute times are non-decreasing and lie
at or after the start time. -/
theorem intoAbsoluteGo_sorted :
    ∀ (l : List DelayBatch) (cur : Time), (∀ p ∈ l, 0 ≤ p.1) →
      (intoAbsoluteGo cur l).Sorted (fun a b => a.1 ≤ b.1) ∧
      ∀ q ∈ intoAbsoluteGo cur l, cur ≤ q.1 := by
  intro l
  induction l with
  | nil =>
    intro cur _
    exact ⟨List.sorted_nil, by intro q hq; cases hq⟩
  | cons p rest ih =>
    intro cur hd
    obtain ⟨d, b⟩ := p
    have hd0 : (0 : ℚ) ≤ d := hd (d, b) (List.mem_cons_self _ _)
    have hrest := ih (cur + d) fun q hq => hd q (List.mem_cons_of_mem _ hq)
    constructor
    · refine List.sorted_cons.mpr ⟨?_, hrest.1⟩
      intro q hq
      exact hrest.2 q hq
    · intro q hq
      rcases List.mem_cons.mp hq with rfl | hq'
      · show cur ≤ cur + d
        linarith
    
      · linarith [hrest.2 q hq']

/-- Every absolute batch keeps a payload from the delay-form list. -/
theorem intoAbsoluteGo_payload :
    ∀ (l : List DelayBatch) (cur : Time) (q : Time × List IncomingJob),
      q ∈ intoAbsoluteGo cur l → ∃ d, (d, q.2) ∈ l := by
  intro l
  induction l with
  | nil => intro cur q hq; cases hq
  | cons p rest ih =>
    intro cur q hq
    obtain ⟨d, b⟩ := p
    rcases List.mem_cons.mp hq with rfl | hq'
    · exact ⟨d, List.mem_cons_self _ _⟩
    · obtain ⟨d2, hd2⟩ := ih (cur + d) q hq'
      exact ⟨d2, List.mem_cons_of_mem _ hd2⟩

/-- The initial cursor list of the k-way merge: one cursor per non-empty
stream, in stream order. -/
def initHeap (streams : List (List α)) : List (HeadTail α) :=
  streams.filterMap fun l =>
    match l with
    | [] => none
    | h :: t => some ⟨h, t⟩

/-- Every initial cursor carries exactly one of the streams. -/
theorem initHeap_mem {streams : List (List α)} :
    ∀ ht ∈ initHeap streams,
      ∃ j, ∃ hj : j < streams.length, ht.toSeq = streams[j] := by
  induction streams with
  | nil => intro ht hht; cases hht
  | cons s rest ih =>
    intro ht hht
    cases s with
    | nil =>
      have : ht ∈ initHeap rest := by simpa [initHeap] using hht
      obtain ⟨j, hj, hts⟩ := ih ht this
      exact ⟨j + 1, by simpa using hj, by simpa using hts⟩
    | cons h t =>
      have : ht = HeadTail.mk h t ∨ ht ∈ initHeap rest := by
        simpa [initHeap] using hht
      rcases this with rfl | hm
      · exact ⟨0, by simp, by simp [HeadTail.toSeq]⟩
      · obtain ⟨j, hj, hts⟩ := ih ht hm
        exact ⟨j + 1, by simpa using hj, by simpa using hts⟩

theorem purity_initHeap (q : α → Bool) (streams : List (List α)) (i : ℕ)
    (hQ : ∀ j (hj : j < streams.length), ∀ y ∈ streams[j],
      q y = decide (j = i)) :
    ∀ ht ∈ initHeap streams, ∀ y ∈ ht.toSeq, q y = q ht.head := by
  intro ht hht y hy
  obtain ⟨j, hj, hts⟩ := initHeap_mem ht hht
  rw [hQ j hj y (hts ▸ hy),
    hQ j hj ht.head (hts ▸ List.mem_cons_self _ _)]

theorem countP_initHeap (q : α → Bool) :
    ∀ (streams : List (List α)) (i : ℕ),
      (∀ j (hj : j < streams.length), ∀ y ∈ streams[j],
        q y = decide (j = i)) →
      (initHeap streams).countP (fun ht => q ht.head) ≤ 1 := by
  intro streams
  induction streams with
  | nil => intro i _; simp [initHeap]
  | cons s rest ih =>
    intro i hQ
    have hQ' : ∀ j (hj : j < rest.length), ∀ y ∈ rest[j],
        q y = decide (j + 1 = i) := by
      intro j hj y hy
      exact hQ (j + 1) (by simpa using hj) y (by simpa using hy)
    cases i with
    | zero =>
      have hzero : (initHeap rest).countP (fun ht => q ht.head) = 0 := by
        rw [List.countP_eq_length_filter]
        rw [List.filter_eq_nil_iff.mpr ?_]
        · rfl
        · intro ht hht
          obtain ⟨j, hj, hts⟩ := initHeap_mem ht hht
          have := hQ' j hj ht.head (hts ▸ List.mem_cons_self _ _)
          simp [this]
      cases s with
      | nil =>
        show (initHeap rest).countP (fun ht => q ht.head) ≤ 1
        omega
      | cons h t =>
        show (HeadTail.mk h t :: initHeap rest).countP
            (fun ht => q ht.head) ≤ 1
        rw [List.countP_cons]
        split <;> omega
    | succ k =>
      have hrec := ih k (by
        intro j hj y hy
        rw [hQ' j hj y hy]
        exact decide_eq_decide.mpr (by omega))
      cases s with
      | nil =>
        show (initHeap rest).countP (fun ht => q ht.head) ≤ 1
        exact hrec
      | cons h t =>
        show (HeadTail.mk h t :: initHeap rest).countP
            (fun ht => q ht.head) ≤ 1
        rw [List.countP_cons]
        have hq0 : q (HeadTail.mk h t).head = false := by
          have := hQ 0 (by simp) h (by simp)
          simpa using this
        simp [hq0]
        omega

theorem posJoin_initHeap (q : α → Bool) :
    ∀ (streams : List (List α)) (i : ℕ) (hi : i < streams.length),
      (∀ j (hj : j < streams.length), ∀ y ∈ streams[j],
        q y = decide (j = i)) →
      posJoin q (initHeap streams) = streams[i] := by
  intro streams
  induction streams with
  | nil => intro i hi; cases hi
  | cons s rest ih =>
    intro i hi hQ
    have hQ' : ∀ j (hj : j < rest.length), ∀ y ∈ rest[j],
        q y = decide (j + 1 = i) := by
      intro j hj y hy
      exact hQ (j + 1) (by simpa using hj) y (by simpa using hy)
    cases i with
    | zero =>
      have hfil : (initHeap rest).filter (fun ht => q ht.head) = [] := by
        refine List.filter_eq_nil_iff.mpr ?_
        intro ht hht
        obtain ⟨j, hj, hts⟩ := initHeap_mem ht hht
        have := hQ' j hj ht.head (hts ▸ List.mem_cons_self _ _)
        simp [this]
      cases s with
      | nil =>
        show posJoin q (initHeap rest) = ([] : List α)
        unfold posJoin
        rw [hfil]
        rfl
      | cons h t =>
        have hqh : q (HeadTail.mk h t).head = true := by
          have := hQ 0 hi h (by simp)
          simpa using this
        show posJoin q (HeadTail.mk h t :: initHeap rest) = h :: t
        unfold posJoin
        rw [List.filter_cons, hfil]
        simp [hqh, HeadTail.toSeq]
    | succ k =>
      have hk : k < rest.length := by simpa using hi
      have hrec := ih k hk (by
        intro j hj y hy
        rw [hQ' j hj y hy]
        exact decide_eq_decide.mpr (by omega))
      cases s with
      | nil =>
        show posJoin q (initHeap rest) = rest[k]
        exact hrec
      | cons h t =>
        have hq0 : q (HeadTail.mk h t).head = false := by
          have := hQ 0 (by simp) h (by simp)
          simpa using this
        show posJoin q (HeadTail.mk h t :: initHeap rest) = rest[k]
        unfold posJoin
        rw [List.filter_cons]
        simp only [hq0]
        exact hrec

/-- Distinct children's id ranges are disjoint. -/
theorem inRangeB_disjoint {i j id : ℕ} (h : inRangeB j id = true)
    (hne : j ≠ i) : inRangeB i id = false := by
  simp only [inRangeB, decide_eq_true_eq] at h
  simp only [inRangeB, decide_eq_false_iff_not]
  omega

end InferSim

namespace InferSim

/-- kmerge_by emits a key-sorted stream when every input stream is sorted. -/
theorem kmergeBy_sorted (k : α → ℚ) [Inhabited α] (streams : List (List α))
    (hS : ∀ j (hj : j < streams.length),
      streams[j].Sorted fun a b => k a ≤ k b) :
    (kmergeBy (keyLt k) streams).Sorted fun a b => k a ≤ k b := by
  have hH : HeapFrom (fun ht : HeadTail α => k ht.head) 0
      (heapify (fun a b : HeadTail α => keyLt k a.head b.head)
        (initHeap streams)) :=
    heapify_spec (fun ht : HeadTail α => k ht.head) (initHeap streams)
  have hcur : ∀ ht ∈ heapify (fun a b : HeadTail α => keyLt k a.head b.head)
      (initHeap streams), ht.toSeq.Sorted fun a b => k a ≤ k b := by
    intro ht hht
    obtain ⟨j, hj, hts⟩ := initHeap_mem ht ((heapify_perm _ _).subset hht)
    rw [hts]
    exact hS j hj
  exact kmergeLoop_sorted k _ _ hH hcur

/-- Filtering the merged stream by a predicate that selects exactly stream i
recovers stream i. -/
theorem kmergeBy_filter_child (q : α → Bool) (k : α → ℚ) [Inhabited α]
    (streams : List (List α)) (i : ℕ) (hi : i < streams.length)
    (hQ : ∀ j (hj : j < streams.length), ∀ y ∈ streams[j],
      q y = decide (j = i)) :
    (kmergeBy (keyLt k) streams).filter q = streams[i] := by
  have hperm : (heapify (fun a b : HeadTail α => keyLt k a.head b.head)
      (initHeap streams)).Perm (initHeap streams) := heapify_perm _ _
  have hcnt : (heapify (fun a b : HeadTail α => keyLt k a.head b.head)
      (initHeap streams)).countP (fun ht => q ht.head) ≤ 1 := by
    rw [hperm.countP_eq]
    exact countP_initHeap q streams i hQ
  have hpure : ∀ ht ∈ heapify (fun a b : HeadTail α => keyLt k a.head b.head)
      (initHeap streams), ∀ y ∈ ht.toSeq, q y = q ht.head :=
    fun ht hht => purity_initHeap q streams i hQ ht (hperm.subset hht)
  have hfil := kmergeLoop_filter q (keyLt k)
    (heapSize (heapify (fun a b : HeadTail α => keyLt k a.head b.head)
      (initHeap streams)))
    (heapify (fun a b : HeadTail α => keyLt k a.head b.head)
      (initHeap streams)) le_rfl hpure hcnt
  have hpj : posJoin q (heapify (fun a b : HeadTail α => keyLt k a.head b.head)
      (initHeap streams)) = posJoin q (initHeap streams) :=
    posJoin_perm q hperm hcnt
  have hEq : kmergeBy (keyLt k) streams =
      kmergeLoop (keyLt k)
        (heapSize (heapify (fun a b : HeadTail α => keyLt k a.head b.head)
          (initHeap streams)))
        (heapify (fun a b : HeadTail α => keyLt k a.head b.head)
          (initHeap streams)) := rfl
  rw [hEq, hfil, hpj, posJoin_initHeap q streams i hi hQ]

end InferSim

namespace InferSim

/-- C7: for every finite list of child incoming generators whose batch
delays are non-negative and whose batches are non-empty with job ids inside
the child's id range [i*10^6, (i+1)*10^6), the composed stream (children
converted to absolute time, k-way merged, converted back to delay form) has
non-decreasing absolute batch times, and filtering the merged stream's
batches by child id range reproduces each child's original absolute timing
and job payloads. (The claim's further tie rule — equal absolute times
ordered by child index — is refuted separately: the itertools heap breaks
ties in sift order, not child order.) -/
theorem combined_merge_amended (models : List (List DelayBatch))
    (hd : ∀ m ∈ models, ∀ p ∈ m, 0 ≤ p.1)
    (hids : ∀ j (hj : j < models.length), ∀ p ∈ models[j],
      0 < p.2.length ∧ ∀ jb ∈ p.2, inRangeB j jb.id = true) :
    (into_absolute (combined models)).Sorted (fun a b => a.1 ≤ b.1) ∧
    ∀ i (hi : i < models.length),
      (into_absolute (combined models)).filter (belongsTo i) =
        into_absolute models[i] := by
  have hcomb : into_absolute (combined models) =
      kmergeBy (keyLt fun p : Time × List IncomingJob => p.1)
        (models.map into_absolute) :=
    intoAbsoluteGo_scanBackGo _ 0
  rw [hcomb]
  constructor
  · refine kmergeBy_sorted (fun p => p.1) (models.map into_absolute) ?_
    intro j hj
    rw [List.getElem_map]
    have hjm : j < models.length := by simpa using hj
    exact (intoAbsoluteGo_sorted models[j] 0
      fun p hp => hd models[j] (List.getElem_mem hjm) p hp).1
  · intro i hi
    have hQ : ∀ j (hj : j < (models.map into_absolute).length),
        ∀ y ∈ (models.map into_absolute)[j],
          belongsTo i y = decide (j = i) := by
      intro j hj y hy
      rw [List.getElem_map] at hy
      have hjm : j < models.length := by simpa using hj
      obtain ⟨d, hdm⟩ := intoAbsoluteGo_payload models[j] 0 y hy
      obtain ⟨hne, hin⟩ := hids j hjm (d, y.2) hdm
      by_cases hij : j = i
      · subst hij
        obtain ⟨jb0, hjb0⟩ :=
          List.exists_mem_of_ne_nil _ (List.length_pos.mp hne)
        have hb : belongsTo j y = true := by
          unfold belongsTo
          exact List.any_eq_true.mpr ⟨jb0, hjb0, hin jb0 hjb0⟩
        simp [hb]
      · have hb : belongsTo i y = false := by
          unfold belongsTo
          refine List.any_eq_false.mpr ?_
          intro jb hjb
          simp [inRangeB_disjoint (hin jb hjb) hij]
        simp [hb, hij]
    have hfc := kmergeBy_filter_child (belongsTo i)
      (fun p : Time × List IncomingJob => p.1) (models.map into_absolute) i
      (by simpa using hi) hQ
    rw [hfc, List.getElem_map]

end InferSim

namespace InferSim

/-- A one-job payload with the given id, constant length 1, no budget. -/
def ij7 (n : ℕ) : IncomingJob := ⟨n, obsConst 1, none⟩

/-- C7 counterexample: three children each emit one batch at absolute time
5 (job ids 0, 10^6, 2·10^6). The claim says equal-time batches are ordered
by child index, but the composed stream emits child 0, then child 2, then
child 1: after the root cursor is exhausted, swap_remove moves the last
cursor (child 2) to the root, and with equal keys sift_down leaves it
there. -/
theorem kmerge_ties_not_by_child_index :
    (combined [[(5, [ij7 0])], [(5, [ij7 1000000])],
        [(5, [ij7 2000000])]]).map
        (fun p => (p.1, p.2.map fun jb => jb.id)) =
      [(5, [0]), (0, [2000000]), (0, [1000000])] := by
  with_unfolding_all decide

/-- A one-child generator list exercising the composition theorem. -/
def mdl7 : List (List DelayBatch) := [[(1, [ij7 0])]]

theorem combined_merge_amended_witness :
    ((∀ m ∈ mdl7, ∀ p ∈ m, 0 ≤ p.1) ∧
     (∀ j (hj : j < mdl7.length), ∀ p ∈ mdl7[j],
       0 < p.2.length ∧ ∀ jb ∈ p.2, inRangeB j jb.id = true)) ∧
    ((into_absolute (combined mdl7)).Sorted (fun a b => a.1 ≤ b.1) ∧
     ∀ i (hi : i < mdl7.length),
       (into_absolute (combined mdl7)).filter (belongsTo i) =
         into_absolute mdl7[i]) :=
  ⟨⟨by with_unfolding_all decide, by with_unfolding_all decide⟩,
   combined_merge_amended mdl7 (by with_unfolding_all decide)
     (by with_unfolding_all decide)⟩

end InferSim
